import Mathlib

/-!
Verification of the Hilbert-curve conversion module (`hilbert.py`).

The module converts between a one-dimensional distance `iH` along a Hilbert
curve and `nD`-dimensional coordinates, with `pH` iterations (side length of
the hypercube is `2 ^ pH`).  It is a transcription of Skilling's
`TransposetoAxes` / `AxestoTranspose` algorithm.

Shallow embedding conventions:
  * Python integers that are always non-negative in the functions below
    (coordinate components, the transpose accumulators, loop masks) are
    modelled as `Nat`; the curve index `iH` may be any Python integer
    (`_bit_at` is applied to it directly, and Python bitwise AND uses the
    two's-complement view), so it is modelled as `Int`.
  * Python's `integer & (1 << offset) > 0` on an arbitrary integer tests the
    two's-complement bit, which equals `2 ^ offset ≤ integer mod 2 ^ (offset+1)`
    with Python's floor (Euclidean, for a positive modulus) `mod`; Lean's
    `Int.emod` (`%`) agrees with Python `%` on positive moduli.
  * Python strings of the characters 0 and 1 are modelled as `List Char`;
    `int(s, 2)` for such a string is `int_of_bin`.
  * The in-place updates `x[i] ^= ...` on the Python list are modelled with
    `List.set` / `List.getD`, sequenced exactly as the loops run them.
  * The `while` loops (`Q` doubling from `2` to `N = 2 ^ pH` in
    `transpose2axes`, `Q` halving from `2 ^ (pH - 1)` down to `1` in
    `axes2transpose`) run exactly `pH - 1` iterations when `pH ≥ 1`; they are
    modelled with fuel `pH`, which is enough for them to run to completion
    (proved below via the iteration-count theorems).
-/

namespace HilbertPy

/-- Line 65, `_bit_at(integer, offset)`: string form of the bit `offset`
places from the least significant bit of `integer`
(`integer & (1 << offset) > 0`, on the two's-complement view). -/
def _bit_at (integer : Int) (offset : Nat) : Char :=
  if (2 ^ offset : Int) ≤ integer % (2 ^ (offset + 1) : Int) then '1' else '0'

/-- Python `int(s, 2)` on a (most-significant-first) string of 0/1
characters. -/
def int_of_bin (s : List Char) : Nat :=
  s.foldl (fun acc c => 2 * acc + (if c = '1' then 1 else 0)) 0

/-- Line 81, `_pack_iH_into_x(iH, pH, nD)`: build the transpose vector `X`
from `iH`.  The bit string of the low `pH * nD` bits of `iH` (most
significant first) is dealt round-robin to the `nD` accumulators and each
accumulator string is parsed back to an integer. -/
def _pack_iH_into_x (iH : Int) (pH nD : Nat) : List Nat :=
  let iH_bit_str := ((List.range (pH * nD)).map (fun i => _bit_at iH i)).reverse
  let x := (List.range nD).map (fun inD =>
    (List.range pH).map (fun ipH => iH_bit_str.getD (ipH * nD + inD) '0'))
  x.map int_of_bin

/-- Line 111, `_extract_iH_from_x(x, pH, nD)`: rebuild `iH` from the
transpose vector, interleaving the per-axis bit strings. -/
def _extract_iH_from_x (x : List Nat) (pH nD : Nat) : Nat :=
  let x_bit_str := (List.range nD).map (fun inD =>
    ((List.range pH).map (fun ipH => _bit_at (x.getD inD 0 : Int) ipH)).reverse)
  let iH_str := (List.range pH).foldl (fun s ipH =>
    s ++ (List.range nD).map (fun inD => (x_bit_str.getD inD []).getD ipH '0')) []
  int_of_bin iH_str

/-- The shared loop body of the two correction loops (lines 162–169 and
191–196): at bit-plane mask `Q`, either invert the low bits of `x[0]` or
exchange the low bits of `x[0]` and `x[i]`, depending on bit `Q` of
`x[i]`. -/
def undo_step (Q : Nat) (x : List Nat) (i : Nat) : List Nat :=
  let P := Q - 1
  if x.getD i 0 &&& Q ≠ 0 then
    x.set 0 (x.getD 0 0 ^^^ P)
  else
    let t := (x.getD 0 0 ^^^ x.getD i 0) &&& P
    let x := x.set 0 (x.getD 0 0 ^^^ t)
    x.set i (x.getD i 0 ^^^ t)

/-- Lines 158–170: the `while Q != N` loop of `transpose2axes`, with fuel.
Each iteration runs the inner loop `for i in range(nD-1, -1, -1)` and then
doubles `Q`. -/
def undo_loop (nD N : Nat) : Nat → Nat → List Nat → List Nat
  | 0, _, x => x
  | fuel + 1, Q, x =>
    if Q ≠ N then
      undo_loop nD N fuel (Q <<< 1)
        (((List.range nD).reverse).foldl (fun x i => undo_step Q x i) x)
    else x

/-- Number of iterations the `while Q != N` loop performs (its condition
depends only on `Q`). -/
def undo_loop_count (N : Nat) : Nat → Nat → Nat
  | 0, _ => 0
  | fuel + 1, Q => if Q ≠ N then undo_loop_count N fuel (Q <<< 1) + 1 else 0

/-- Line 139, `transpose2axes(iH, pH, nD)`: unpack `iH`, Gray-decode across
axes, then undo the excess work. -/
def transpose2axes (iH : Int) (pH nD : Nat) : List Nat :=
  let x := _pack_iH_into_x iH pH nD
  let N := 2 <<< (pH - 1)
  let t := x.getD (nD - 1) 0 >>> 1
  let x := ((List.range' 1 (nD - 1)).reverse).foldl
    (fun x i => x.set i (x.getD i 0 ^^^ x.getD (i - 1) 0)) x
  let x := x.set 0 (x.getD 0 0 ^^^ t)
  undo_loop nD N pH 2 x

/-- Lines 187–197: the `while Q > 1` correction loop of `axes2transpose`,
with fuel; each iteration runs the inner loop `for i in range(nD)` and
halves `Q`.  At the call site `Q = 2 ^ (pH - 1)`, so the loop stops after
exactly `pH - 1` iterations and fuel `pH` suffices. -/
def inverse_undo_loop (nD : Nat) : Nat → Nat → List Nat → List Nat
  | 0, _, x => x
  | fuel + 1, Q, x =>
    if 1 < Q then
      inverse_undo_loop nD fuel (Q >>> 1)
        ((List.range nD).foldl (fun x i => undo_step Q x i) x)
    else x

/-- Number of iterations of a `while Q > 1`, `Q >>= 1` loop. -/
def halving_count : Nat → Nat → Nat
  | 0, _ => 0
  | fuel + 1, Q => if 1 < Q then halving_count fuel (Q >>> 1) + 1 else 0

/-- Lines 202–207: the `while Q > 1` loop accumulating the Gray-encode
correction `t` from the top axis, with fuel (again fuel `pH` suffices for
the start value `Q = 2 ^ (pH - 1)`). -/
def gray_t_loop (v : Nat) : Nat → Nat → Nat → Nat
  | 0, _, t => t
  | fuel + 1, Q, t =>
    if 1 < Q then
      gray_t_loop v fuel (Q >>> 1) (if v &&& Q ≠ 0 then t ^^^ (Q - 1) else t)
    else t

/-- Lines 184–209 of `axes2transpose`: the state of the caller's list `x`
after the in-place transformation (inverse undo loop, Gray encode, final
XOR with `t`) and just before `_extract_iH_from_x` — which only reads `x` —
is called. -/
def axes2transpose_update (x : List Nat) (pH nD : Nat) : List Nat :=
  let M := 1 <<< (pH - 1)
  let x := inverse_undo_loop nD pH M x
  let x := (List.range' 1 (nD - 1)).foldl
    (fun x i => x.set i (x.getD i 0 ^^^ x.getD (i - 1) 0)) x
  let t := gray_t_loop (x.getD (nD - 1) 0) pH M 0
  (List.range nD).foldl (fun x i => x.set i (x.getD i 0 ^^^ t)) x

/-- Line 175, `axes2transpose(x, pH, nD)`: transform the coordinates in
place to the transpose vector, then extract the curve distance. -/
def axes2transpose (x : List Nat) (pH nD : Nat) : Nat :=
  _extract_iH_from_x (axes2transpose_update x pH nD) pH nD

end HilbertPy

namespace HilbertPy

/-! ### List access helpers -/

theorem getD_set (l : List Nat) (i j v : Nat) :
    (l.set i v).getD j 0 = if i = j ∧ j < l.length then v else l.getD j 0 := by
  simp only [List.getD_eq_getElem?_getD, List.getElem?_set]
  by_cases h : i = j
  · subst h
    by_cases h2 : i < l.length
    · simp [h2]
    · have hn : l[i]? = none := List.getElem?_eq_none (by omega)
      simp [h2, hn]
  · simp [h]

theorem getD_map_range {α : Type} (f : Nat → α) (n j : Nat) (d : α) (h : j < n) :
    ((List.range n).map f).getD j d = f j := by
  simp [List.getD_eq_getElem?_getD, List.getElem?_map, List.getElem?_range h]

theorem getD_reverse {α : Type} (l : List α) (j : Nat) (d : α) (h : j < l.length) :
    l.reverse.getD j d = l.getD (l.length - 1 - j) d := by
  have h2 : j < l.reverse.length := by simpa using h
  have h3 : l.length - 1 - j < l.length := by omega
  rw [List.getD_eq_getElem?_getD, List.getD_eq_getElem?_getD,
    List.getElem?_eq_getElem h2, List.getElem?_eq_getElem h3]
  simp [List.getElem_reverse]

/-! ### Bits of `int_of_bin` -/

theorem int_of_bin_go (s : List Char) (a : Nat) :
    s.foldl (fun acc c => 2 * acc + (if c = '1' then 1 else 0)) a
      = a * 2 ^ s.length + int_of_bin s := by
  induction s generalizing a with
  | nil => simp [int_of_bin]
  | cons c t ih =>
    simp only [int_of_bin, List.foldl_cons, List.length_cons]
    rw [ih, ih (2 * 0 + if c = '1' then 1 else 0)]
    ring

theorem int_of_bin_cons (c : Char) (t : List Char) :
    int_of_bin (c :: t) = (if c = '1' then 1 else 0) * 2 ^ t.length + int_of_bin t := by
  have h : int_of_bin (c :: t)
      = t.foldl (fun acc c => 2 * acc + (if c = '1' then 1 else 0))
          (2 * 0 + if c = '1' then 1 else 0) := rfl
  rw [h, int_of_bin_go]
  ring_nf

theorem int_of_bin_lt (s : List Char) : int_of_bin s < 2 ^ s.length := by
  induction s with
  | nil => simp [int_of_bin]
  | cons c t ih =>
    rw [int_of_bin_cons]
    have hb : (if c = '1' then 1 else 0) * 2 ^ t.length ≤ 2 ^ t.length := by
      split <;> omega
    simp only [List.length_cons, pow_succ]
    omega

theorem testBit_mul_pow_add (b v L k : Nat) (hv : v < 2 ^ L) :
    (b * 2 ^ L + v).testBit k = if k < L then v.testBit k else b.testBit (k - L) := by
  rcases Nat.lt_or_ge k L with h | h
  · rw [if_pos h, Nat.testBit_to_div_mod, Nat.testBit_to_div_mod]
    have h1 : (2 : Nat) ^ L = 2 ^ (L - k) * 2 ^ k := by
      rw [← pow_add]
      congr 1
      omega
    have h2 : (b * 2 ^ L + v) / 2 ^ k = v / 2 ^ k + b * 2 ^ (L - k) := by
      rw [h1, ← Nat.mul_assoc, Nat.add_comm,
        Nat.add_mul_div_right _ _ (Nat.pos_pow_of_pos k (by norm_num))]
    rw [h2]
    have h3 : (2 : Nat) ^ (L - k) = 2 ^ (L - k - 1) * 2 := by
      rw [← pow_succ]
      congr 1
      omega
    rw [h3, ← Nat.mul_assoc, Nat.add_mul_mod_self_right]
  · rw [if_neg (by omega), Nat.testBit_to_div_mod, Nat.testBit_to_div_mod]
    have h1 : (2 : Nat) ^ k = 2 ^ L * 2 ^ (k - L) := by
      rw [← pow_add]
      congr 1
      omega
    have h2 : (b * 2 ^ L + v) / 2 ^ k = b / 2 ^ (k - L) := by
      rw [h1, ← Nat.div_div_eq_div_mul]
      have h3 : (b * 2 ^ L + v) / 2 ^ L = v / 2 ^ L + b := by
        rw [Nat.add_comm, Nat.add_mul_div_right _ _ (Nat.pos_pow_of_pos L (by norm_num))]
      rw [h3, Nat.div_eq_of_lt hv, Nat.zero_add]
    rw [h2]

theorem int_of_bin_testBit (s : List Char) (k : Nat) :
    (int_of_bin s).testBit k
      = (decide (k < s.length) && decide (s.getD (s.length - 1 - k) '0' = '1')) := by
  induction s with
  | nil => simp [int_of_bin]
  | cons c t ih =>
    rw [int_of_bin_cons, testBit_mul_pow_add _ _ _ _ (int_of_bin_lt t)]
    rcases Nat.lt_trichotomy k t.length with h | h | h
    · rw [if_pos h, ih]
      have h1 : (c :: t).length - 1 - k = (t.length - 1 - k) + 1 := by
        simp only [List.length_cons]
        omega
      rw [h1, List.getD_cons_succ]
      simp only [List.length_cons]
      have : k < t.length + 1 := by omega
      simp [h, this]
    · subst h
      have h1 : (c :: t).length - 1 - t.length = 0 := by
        simp only [List.length_cons]
        omega
      rw [if_neg (by omega), Nat.sub_self, h1, List.getD_cons_zero]
      have hlt : t.length < (c :: t).length := by simp
      by_cases hc : c = '1'
      · simp [hc, hlt]
      · simp [hc, hlt]
    · rw [if_neg (by omega)]
      have h1 : (if c = '1' then 1 else 0) < 2 ^ (k - t.length) := by
        have h2 : (2 : Nat) ^ 1 ≤ 2 ^ (k - t.length) :=
          Nat.pow_le_pow_right (by norm_num) (by omega)
        have h3 : (1 : Nat) < 2 ^ (k - t.length) := by omega
        split <;> omega
      have hk : (decide (k < (c :: t).length)) = false := by
        simp only [List.length_cons, decide_eq_false_iff_not]
        omega
      rw [Nat.testBit_lt_two_pow h1, hk, Bool.false_and]

/-! ### The Python bit test -/

/-- Boolean form of the test in `_bit_at`. -/
def pybit (i : Int) (k : Nat) : Bool :=
  decide ((2 ^ k : Int) ≤ i % (2 ^ (k + 1) : Int))

theorem _bit_at_eq (i : Int) (k : Nat) :
    _bit_at i k = if pybit i k then '1' else '0' := by
  by_cases h : (2 ^ k : Int) ≤ i % (2 ^ (k + 1) : Int) <;> simp [_bit_at, pybit, h]

theorem _bit_at_eq_one (i : Int) (k : Nat) :
    decide (_bit_at i k = '1') = pybit i k := by
  rw [_bit_at_eq]
  cases hb : pybit i k <;> simp

theorem testBit_eq_le_mod (v k : Nat) :
    v.testBit k = decide (2 ^ k ≤ v % 2 ^ (k + 1)) := by
  have h0 : (0 : Nat) < 2 ^ k := Nat.two_pow_pos k
  have h1 : (v % 2 ^ (k + 1)).testBit k = v.testBit k := by
    rw [Nat.testBit_mod_two_pow]
    simp
  have h2 : v % 2 ^ (k + 1) < 2 ^ (k + 1) := Nat.mod_lt _ (Nat.two_pow_pos _)
  have h3 : v % 2 ^ (k + 1) / 2 ^ k < 2 := by
    rw [Nat.div_lt_iff_lt_mul h0]
    calc v % 2 ^ (k + 1) < 2 ^ (k + 1) := h2
    _ = 2 * 2 ^ k := by ring
  have h4 : 2 ^ k ≤ v % 2 ^ (k + 1) ↔ 1 ≤ v % 2 ^ (k + 1) / 2 ^ k := by
    rw [Nat.le_div_iff_mul_le h0, one_mul]
  rw [← h1, Nat.testBit_to_div_mod, decide_eq_decide]
  generalize hg : v % 2 ^ (k + 1) / 2 ^ k = D at h3 h4
  omega

theorem pybit_natCast (v k : Nat) : pybit (v : Int) k = v.testBit k := by
  rw [pybit, testBit_eq_le_mod]
  have h1 : ((v : Int) % (2 ^ (k + 1) : Int)) = ((v % 2 ^ (k + 1) : Nat) : Int) := by
    push_cast
    rfl
  rw [h1, decide_eq_decide]
  constructor
  · intro h
    exact_mod_cast h
  · intro h
    exact_mod_cast h

theorem pybit_emod (i : Int) (K k : Nat) (h : k < K) :
    pybit (i % (2 ^ K : Int)) k = pybit i k := by
  unfold pybit
  have hd : ((2 : Int) ^ (k + 1)) ∣ ((2 : Int) ^ K) := pow_dvd_pow 2 (by omega)
  rw [Int.emod_emod_of_dvd _ hd]

end HilbertPy

namespace HilbertPy

/-! ### Index arithmetic for the transpose layout -/

theorem mul_index_lt (p n l j : Nat) (hl : l < p) (hj : j < n) : l * n + j < p * n := by
  have h1 : (l + 1) * n = l * n + n := by ring
  have h2 : (l + 1) * n ≤ p * n := Nat.mul_le_mul_right n hl
  omega

theorem flip_index (p n k j : Nat) (hk : k < p) (hj : j < n) :
    p * n - 1 - ((p - 1 - k) * n + j) = k * n + (n - 1 - j) := by
  obtain ⟨a, rfl⟩ : ∃ a, p = k + a + 1 := ⟨p - k - 1, by omega⟩
  obtain ⟨b, rfl⟩ : ∃ b, n = j + b + 1 := ⟨n - j - 1, by omega⟩
  have h1 : k + a + 1 - 1 - k = a := by omega
  have h2 : j + b + 1 - 1 - j = b := by omega
  rw [h1, h2]
  have h3 : (k + a + 1) * (j + b + 1)
      = a * (j + b + 1) + k * (j + b + 1) + (j + b + 1) := by ring
  omega

/-! ### Characterization of `_pack_iH_into_x` -/

theorem _pack_length (iH : Int) (p n : Nat) : (_pack_iH_into_x iH p n).length = n := by
  simp [_pack_iH_into_x]

theorem iH_bit_str_getD (iH : Int) (L m : Nat) (hm : m < L) :
    (((List.range L).map (fun i => _bit_at iH i)).reverse).getD m '0'
      = _bit_at iH (L - 1 - m) := by
  have hlen : ((List.range L).map (fun i => _bit_at iH i)).length = L := by simp
  have hm2 : m < ((List.range L).map (fun i => _bit_at iH i)).length := by omega
  rw [getD_reverse _ _ _ hm2, hlen, getD_map_range _ L _ _ (by omega)]

theorem _pack_getD (iH : Int) (p n j : Nat) (hj : j < n) :
    (_pack_iH_into_x iH p n).getD j 0
      = int_of_bin ((List.range p).map (fun l =>
          (((List.range (p * n)).map (fun i => _bit_at iH i)).reverse).getD (l * n + j) '0')) := by
  unfold _pack_iH_into_x
  rw [List.map_map, getD_map_range _ n j 0 hj]
  rfl

theorem _pack_testBit (iH : Int) (p n j k : Nat) (hj : j < n) :
    ((_pack_iH_into_x iH p n).getD j 0).testBit k
      = (decide (k < p) && pybit iH (k * n + (n - 1 - j))) := by
  rw [_pack_getD iH p n j hj, int_of_bin_testBit]
  have hlen : ((List.range p).map (fun l =>
      (((List.range (p * n)).map (fun i => _bit_at iH i)).reverse).getD (l * n + j) '0')).length
        = p := by simp
  rw [hlen]
  by_cases hk : k < p
  · have h1 : p - 1 - k < p := by omega
    rw [getD_map_range _ p (p - 1 - k) _ h1]
    rw [iH_bit_str_getD iH (p * n) _ (mul_index_lt p n (p - 1 - k) j h1 hj)]
    rw [flip_index p n k j hk hj]
    rw [_bit_at_eq_one]
  · simp [hk]

theorem _pack_getD_lt (iH : Int) (p n j : Nat) :
    (_pack_iH_into_x iH p n).getD j 0 < 2 ^ p := by
  by_cases hj : j < n
  · rw [_pack_getD iH p n j hj]
    have h := int_of_bin_lt ((List.range p).map (fun l =>
      (((List.range (p * n)).map (fun i => _bit_at iH i)).reverse).getD (l * n + j) '0'))
    simpa using h
  · rw [List.getD_eq_getElem?_getD, List.getElem?_eq_none (by rw [_pack_length]; omega)]
    exact Nat.two_pow_pos p

end HilbertPy

namespace HilbertPy

/-! ### Characterization of `_extract_iH_from_x` -/

theorem foldl_append_eq {A : Type} (g : Nat → List A) (L : List Nat) (init : List A) :
    L.foldl (fun s l => s ++ g l) init = init ++ (L.map g).flatten := by
  induction L generalizing init with
  | nil => simp
  | cons a L ih => simp [ih, List.append_assoc]

theorem flatten_length_const {A : Type} (L : List (List A)) (n : Nat)
    (h : ∀ c ∈ L, c.length = n) : L.flatten.length = L.length * n := by
  induction L with
  | nil => simp
  | cons c L ih =>
    have hc : c.length = n := h c (by simp)
    have hr := ih (fun c hc => h c (by simp [hc]))
    simp only [List.flatten_cons, List.length_append, List.length_cons, hc, hr]
    ring

theorem flatten_getD_const {A : Type} (L : List (List A)) (n : Nat)
    (h : ∀ c ∈ L, c.length = n) (l j : Nat) (hl : l < L.length) (hj : j < n) (d : A) :
    L.flatten.getD (l * n + j) d = (L.getD l []).getD j d := by
  induction L generalizing l with
  | nil => simp at hl
  | cons c L ih =>
    have hc : c.length = n := h c (by simp)
    cases l with
    | zero =>
      simp only [List.flatten_cons, Nat.zero_mul, Nat.zero_add, List.getD_cons_zero]
      rw [List.getD_eq_getElem?_getD, List.getD_eq_getElem?_getD, List.getElem?_append]
      rw [if_pos (by omega)]
    | succ l =>
      have hidx : (l + 1) * n + j = c.length + (l * n + j) := by rw [hc]; ring
      simp only [List.flatten_cons, hidx, List.getD_cons_succ]
      rw [List.getD_eq_getElem?_getD, List.getElem?_append_right (by omega)]
      have hsub : c.length + (l * n + j) - c.length = l * n + j := by omega
      rw [hsub, ← List.getD_eq_getElem?_getD]
      exact ih (fun c hc => h c (by simp [hc])) l (by simpa using hl)

theorem _extract_eq_flatten (x : List Nat) (p n : Nat) :
    _extract_iH_from_x x p n
      = int_of_bin ((List.range p).map (fun l =>
          (List.range n).map (fun jj =>
            ((((List.range n).map (fun inD =>
              ((List.range p).map (fun ipH =>
                _bit_at (x.getD inD 0 : Int) ipH)).reverse)).getD jj []).getD l '0')))).flatten := by
  unfold _extract_iH_from_x
  dsimp only
  rw [foldl_append_eq]
  rfl

theorem _extract_lt (x : List Nat) (p n : Nat) :
    _extract_iH_from_x x p n < 2 ^ (p * n) := by
  rw [_extract_eq_flatten]
  have hch : ∀ c ∈ (List.range p).map (fun l =>
      (List.range n).map (fun jj =>
        ((((List.range n).map (fun inD =>
          ((List.range p).map (fun ipH =>
            _bit_at (x.getD inD 0 : Int) ipH)).reverse)).getD jj []).getD l '0'))),
      c.length = n := by
    intro c hc
    simp only [List.mem_map, List.mem_range] at hc
    obtain ⟨l, _, rfl⟩ := hc
    simp
  have hlen := flatten_length_const _ n hch
  have h := int_of_bin_lt ((List.range p).map (fun l =>
      (List.range n).map (fun jj =>
        ((((List.range n).map (fun inD =>
          ((List.range p).map (fun ipH =>
            _bit_at (x.getD inD 0 : Int) ipH)).reverse)).getD jj []).getD l '0')))).flatten
  rw [hlen] at h
  simpa using h

theorem _extract_testBit (x : List Nat) (p n k j : Nat) (hk : k < p) (hj : j < n) :
    (_extract_iH_from_x x p n).testBit (k * n + (n - 1 - j))
      = (x.getD j 0).testBit k := by
  rw [_extract_eq_flatten, int_of_bin_testBit]
  have hch : ∀ c ∈ (List.range p).map (fun l =>
      (List.range n).map (fun jj =>
        ((((List.range n).map (fun inD =>
          ((List.range p).map (fun ipH =>
            _bit_at (x.getD inD 0 : Int) ipH)).reverse)).getD jj []).getD l '0'))),
      c.length = n := by
    intro c hc
    simp only [List.mem_map, List.mem_range] at hc
    obtain ⟨l, _, rfl⟩ := hc
    simp
  have hlen := flatten_length_const _ n hch
  have hL : ((List.range p).map (fun l =>
      (List.range n).map (fun jj =>
        ((((List.range n).map (fun inD =>
          ((List.range p).map (fun ipH =>
            _bit_at (x.getD inD 0 : Int) ipH)).reverse)).getD jj []).getD l '0')))).length = p := by
    simp
  rw [hlen, hL]
  have hjn : n - 1 - j < n := by omega
  have hm : k * n + (n - 1 - j) < p * n := mul_index_lt p n k (n - 1 - j) hk hjn
  have hflip := flip_index p n k j hk hj
  have hb1 : (p - 1 - k) * n + j < p * n := mul_index_lt p n (p - 1 - k) j (by omega) hj
  have hidx : p * n - 1 - (k * n + (n - 1 - j)) = (p - 1 - k) * n + j := by omega
  rw [hidx]
  rw [flatten_getD_const _ n hch (p - 1 - k) j (by simpa using (by omega : p - 1 - k < p)) hj]
  rw [getD_map_range _ p (p - 1 - k) _ (by omega)]
  rw [getD_map_range _ n j _ hj]
  rw [getD_map_range _ n j _ hj]
  have hrev : (((List.range p).map (fun ipH =>
      _bit_at (x.getD j 0 : Int) ipH)).reverse).getD (p - 1 - k) '0'
        = _bit_at (x.getD j 0 : Int) k := by
    have hlen2 : ((List.range p).map (fun ipH => _bit_at (x.getD j 0 : Int) ipH)).length = p := by
      simp
    have hlt : p - 1 - k < ((List.range p).map (fun ipH =>
        _bit_at (x.getD j 0 : Int) ipH)).length := by omega
    rw [getD_reverse _ _ _ hlt, hlen2, getD_map_range _ p _ _ (by omega)]
    have : p - 1 - (p - 1 - k) = k := by omega
    rw [this]
  rw [hrev, _bit_at_eq_one, pybit_natCast]
  simp [hm]

end HilbertPy

namespace HilbertPy

/-! ### BitPacker round trips -/

theorem getD_eq_getElem (l : List Nat) (i : Nat) (h : i < l.length) :
    l[i] = l.getD i 0 := by
  rw [List.getD_eq_getElem?_getD, List.getElem?_eq_getElem h]
  rfl

theorem extract_pack (d : Nat) (p n : Nat) (hd : d < 2 ^ (p * n)) :
    _extract_iH_from_x (_pack_iH_into_x (d : Int) p n) p n = d := by
  apply Nat.eq_of_testBit_eq
  intro m
  by_cases hm : m < p * n
  · have hn : 0 < n := by
      rcases Nat.eq_zero_or_pos n with h | h
      · subst h
        simp at hm
      · exact h
    have hk : m / n < p := (Nat.div_lt_iff_lt_mul hn).mpr hm
    have hr : m % n < n := Nat.mod_lt _ hn
    have hj : n - 1 - (m % n) < n := by omega
    have hm2 : (m / n) * n + (n - 1 - (n - 1 - (m % n))) = m := by
      have hdm := Nat.div_add_mod m n
      have hcomm : (m / n) * n = n * (m / n) := Nat.mul_comm _ _
      omega
    rw [← hm2, _extract_testBit _ p n (m / n) (n - 1 - (m % n)) hk hj,
      _pack_testBit _ p n (n - 1 - (m % n)) (m / n) hj, hm2]
    rw [pybit_natCast]
    simp [hk]
  · have h1 : _extract_iH_from_x (_pack_iH_into_x (d : Int) p n) p n < 2 ^ m :=
      lt_of_lt_of_le (_extract_lt _ p n) (Nat.pow_le_pow_right (by norm_num) (by omega))
    have h2 : d < 2 ^ m :=
      lt_of_lt_of_le hd (Nat.pow_le_pow_right (by norm_num) (by omega))
    rw [Nat.testBit_lt_two_pow h1, Nat.testBit_lt_two_pow h2]

theorem pack_extract (x : List Nat) (p n : Nat) (hlen : x.length = n)
    (hb : ∀ j, j < n → x.getD j 0 < 2 ^ p) :
    _pack_iH_into_x (_extract_iH_from_x x p n : Int) p n = x := by
  apply List.ext_getElem (by rw [_pack_length, hlen])
  intro i h1 h2
  rw [getD_eq_getElem _ _ h1, getD_eq_getElem _ _ h2]
  have hi : i < n := by
    rw [_pack_length] at h1
    exact h1
  apply Nat.eq_of_testBit_eq
  intro k
  rw [_pack_testBit _ p n i k hi]
  by_cases hk : k < p
  · rw [pybit_natCast, _extract_testBit x p n k i hk hi]
    simp [hk]
  · have hgt : x.getD i 0 < 2 ^ k :=
      lt_of_lt_of_le (hb i hi) (Nat.pow_le_pow_right (by norm_num) (by omega))
    rw [Nat.testBit_lt_two_pow hgt]
    simp [hk]

end HilbertPy

namespace HilbertPy

/-! ### Properties of the shared correction step -/

theorem set_self (x : List Nat) (j : Nat) (h : j < x.length) :
    x.set j (x.getD j 0) = x := by
  apply List.ext_getElem (by simp)
  intro i h1 h2
  rw [getD_eq_getElem _ _ h1, getD_eq_getElem _ _ h2, getD_set]
  split
  · next hc =>
    rw [← hc.1]
  · rfl

theorem and_two_pow_xor (a s l : Nat) (hs : s < 2 ^ l) :
    (a ^^^ s) &&& 2 ^ l = a &&& 2 ^ l := by
  rw [Nat.and_two_pow, Nat.and_two_pow, Nat.testBit_xor, Nat.testBit_lt_two_pow hs]
  simp

theorem undo_step_length (Q : Nat) (x : List Nat) (i : Nat) :
    (undo_step Q x i).length = x.length := by
  unfold undo_step
  split <;> simp

theorem undo_step_invol (l : Nat) (x : List Nat) (i : Nat) (hi : i < x.length) :
    undo_step (2 ^ l) (undo_step (2 ^ l) x i) i = x := by
  have hlen : 0 < x.length := by omega
  have hP : 2 ^ l - 1 < 2 ^ l := by
    have := Nat.two_pow_pos l
    omega
  have ht_lt : ∀ a b : Nat, (a ^^^ b) &&& (2 ^ l - 1) < 2 ^ l := fun a b =>
    lt_of_le_of_lt Nat.and_le_right hP
  by_cases h : x.getD i 0 &&& 2 ^ l ≠ 0
  · -- invert branch
    have h1 : undo_step (2 ^ l) x i = x.set 0 (x.getD 0 0 ^^^ (2 ^ l - 1)) := by
      unfold undo_step
      rw [if_pos h]
    rw [h1]
    have hc : (x.set 0 (x.getD 0 0 ^^^ (2 ^ l - 1))).getD i 0 &&& 2 ^ l ≠ 0 := by
      rw [getD_set]
      by_cases hi0 : (0 : Nat) = i
      · rw [if_pos ⟨hi0, by omega⟩]
        rw [← hi0] at h
        rw [and_two_pow_xor _ _ l hP]
        exact h
      · rw [if_neg (by intro hcc; exact hi0 hcc.1)]
        exact h
    have h2 : undo_step (2 ^ l) (x.set 0 (x.getD 0 0 ^^^ (2 ^ l - 1))) i
        = (x.set 0 (x.getD 0 0 ^^^ (2 ^ l - 1))).set 0
            ((x.set 0 (x.getD 0 0 ^^^ (2 ^ l - 1))).getD 0 0 ^^^ (2 ^ l - 1)) := by
      unfold undo_step
      rw [if_pos hc]
    rw [h2, List.set_set, getD_set, if_pos ⟨rfl, hlen⟩, Nat.xor_cancel_right]
    exact set_self x 0 hlen
  · -- exchange branch
    push_neg at h
    by_cases hi0 : i = 0
    · subst hi0
      have hstep : ∀ y : List Nat, y.getD 0 0 &&& 2 ^ l = 0 → undo_step (2 ^ l) y 0 = y := by
        intro y hy
        by_cases hyl : 0 < y.length
        · unfold undo_step
          rw [if_neg (by simpa using hy)]
          dsimp only
          have hz : (y.getD 0 0 ^^^ y.getD 0 0) &&& (2 ^ l - 1) = 0 := by
            rw [Nat.xor_self]
            simp
          rw [hz]
          simp only [Nat.xor_zero]
          have hXy : y.set 0 (y.getD 0 0) = y := set_self y 0 hyl
          rw [hXy]
          exact hXy
        · have hnil : y = [] := by
            cases y with
            | nil => rfl
            | cons a t => simp at hyl
          subst hnil
          simp [undo_step]
      rw [hstep x h, hstep x h]
    · -- i is not the first axis
      set a := x.getD 0 0 with ha
      set b := x.getD i 0 with hb
      set t := (a ^^^ b) &&& (2 ^ l - 1) with htdef
      have hilen : i < (x.set 0 (a ^^^ t)).length := by simpa using hi
      have hg0 : (x.set 0 (a ^^^ t)).getD i 0 = b := by
        rw [getD_set, if_neg (by intro hcc; exact hi0 hcc.1.symm)]
      have h1 : undo_step (2 ^ l) x i = (x.set 0 (a ^^^ t)).set i (b ^^^ t) := by
        unfold undo_step
        rw [if_neg (by intro hh; rw [← hb] at hh; exact hh h)]
        dsimp only
        rw [← ha, ← hb, ← htdef, hg0]
      rw [h1]
      set y := (x.set 0 (a ^^^ t)).set i (b ^^^ t) with hy
      have hy0 : y.getD 0 0 = a ^^^ t := by
        rw [hy, getD_set, if_neg (by intro hcc; exact hi0 hcc.1), getD_set,
          if_pos ⟨rfl, hlen⟩]
      have hyi : y.getD i 0 = b ^^^ t := by
        rw [hy, getD_set, if_pos ⟨rfl, hilen⟩]
      have hcond : y.getD i 0 &&& 2 ^ l = 0 := by
        rw [hyi, and_two_pow_xor _ _ l (ht_lt a b)]
        exact h
      have ht2 : (y.getD 0 0 ^^^ y.getD i 0) &&& (2 ^ l - 1) = t := by
        rw [hy0, hyi]
        have hxr : a ^^^ t ^^^ (b ^^^ t) = a ^^^ b := by
          rw [Nat.xor_assoc, Nat.xor_comm t (b ^^^ t), Nat.xor_assoc, Nat.xor_self,
            Nat.xor_zero]
        rw [hxr]
      have hgi : (y.set 0 (y.getD 0 0 ^^^ t)).getD i 0 = b ^^^ t := by
        rw [getD_set, if_neg (by intro hcc; exact hi0 hcc.1.symm), hyi]
      have h2 : undo_step (2 ^ l) y i = (y.set 0 (y.getD 0 0 ^^^ t)).set i
          ((y.set 0 (y.getD 0 0 ^^^ t)).getD i 0 ^^^ t) := by
        unfold undo_step
        rw [if_neg (by intro hh; exact hh hcond)]
        dsimp only
        rw [ht2]
      rw [h2, hgi, hy0, Nat.xor_cancel_right, Nat.xor_cancel_right, hy]
      have e1 : ((x.set 0 (a ^^^ t)).set i (b ^^^ t)).set 0 a
          = ((x.set 0 (a ^^^ t)).set 0 a).set i (b ^^^ t) :=
        List.set_comm _ _ _ (by omega)
      have e3 : x.set 0 a = x := by
        rw [ha]
        exact set_self x 0 hlen
      rw [e1, List.set_set, List.set_set, e3, hb]
      exact set_self x i hi

end HilbertPy

namespace HilbertPy

/-! ### The two correction loops undo each other -/

theorem foldl_undo_length (Q : Nat) (L : List Nat) (x : List Nat) :
    (L.foldl (fun y i => undo_step Q y i) x).length = x.length := by
  induction L generalizing x with
  | nil => rfl
  | cons a L ih =>
    simp only [List.foldl_cons]
    rw [ih, undo_step_length]

theorem foldl_undo_cancel (l : Nat) (L : List Nat) (x : List Nat)
    (hL : ∀ i ∈ L, i < x.length) :
    L.reverse.foldl (fun y i => undo_step (2 ^ l) y i)
      (L.foldl (fun y i => undo_step (2 ^ l) y i) x) = x := by
  induction L generalizing x with
  | nil => rfl
  | cons a L ih =>
    simp only [List.foldl_cons, List.reverse_cons, List.foldl_append, List.foldl_cons,
      List.foldl_nil]
    have ha : a < x.length := hL a (by simp)
    have hlen : (undo_step (2 ^ l) x a).length = x.length := undo_step_length _ _ _
    have ih2 := ih (undo_step (2 ^ l) x a)
      (fun i hi => by rw [hlen]; exact hL i (by simp [hi]))
    rw [ih2]
    exact undo_step_invol l x a ha

/-- One inner pass of the `transpose2axes` correction loop
(`for i in range(nD-1, -1, -1)`). -/
def desc_pass (n Q : Nat) (x : List Nat) : List Nat :=
  ((List.range n).reverse).foldl (fun x i => undo_step Q x i) x

/-- One inner pass of the `axes2transpose` correction loop
(`for i in range(nD)`). -/
def asc_pass (n Q : Nat) (x : List Nat) : List Nat :=
  (List.range n).foldl (fun x i => undo_step Q x i) x

theorem desc_pass_length (n Q : Nat) (x : List Nat) :
    (desc_pass n Q x).length = x.length := foldl_undo_length _ _ _

theorem asc_pass_length (n Q : Nat) (x : List Nat) :
    (asc_pass n Q x).length = x.length := foldl_undo_length _ _ _

theorem asc_desc_cancel (l n : Nat) (x : List Nat) (hx : n ≤ x.length) :
    asc_pass n (2 ^ l) (desc_pass n (2 ^ l) x) = x := by
  have hL : ∀ i ∈ (List.range n).reverse, i < x.length := by
    intro i hi
    rw [List.mem_reverse, List.mem_range] at hi
    omega
  have h := foldl_undo_cancel l ((List.range n).reverse) x hL
  rw [List.reverse_reverse] at h
  unfold asc_pass desc_pass
  exact h

theorem two_shl (p : Nat) (hp : 1 ≤ p) : 2 <<< (p - 1) = 2 ^ p := by
  rw [Nat.shiftLeft_eq, ← pow_succ']
  congr 1
  omega

theorem one_shl (p : Nat) : 1 <<< (p - 1) = 2 ^ (p - 1) := by
  rw [Nat.shiftLeft_eq, one_mul]

theorem pow_shiftRight_one (a : Nat) : 2 ^ (a + 1) >>> 1 = 2 ^ a := by
  rw [Nat.shiftRight_eq_div_pow, pow_one, pow_succ, Nat.mul_div_cancel _ (by norm_num)]

theorem undo_loop_eq_fold (n b : Nat) : ∀ (fuel a : Nat), a ≤ b → b - a ≤ fuel →
    ∀ x, undo_loop n (2 ^ b) fuel (2 ^ a) x
      = (List.range' a (b - a)).foldl (fun x l => desc_pass n (2 ^ l) x) x := by
  intro fuel
  induction fuel with
  | zero =>
    intro a ha hf x
    have hab : b = a := by omega
    subst hab
    simp [undo_loop]
  | succ fuel ih =>
    intro a ha hf x
    by_cases hab : a = b
    · subst hab
      simp [undo_loop]
    · have hlt : a < b := by omega
      have hne : (2 : Nat) ^ a ≠ 2 ^ b := by
        intro hc
        have := Nat.pow_lt_pow_right (by norm_num : (1 : Nat) < 2) hlt
        omega
      simp only [undo_loop]
      rw [if_pos hne]
      have hsh : (2 : Nat) ^ a <<< 1 = 2 ^ (a + 1) := by
        rw [Nat.shiftLeft_eq, ← pow_add]
      rw [hsh, ih (a + 1) (by omega) (by omega)]
      have hr : b - a = (b - (a + 1)) + 1 := by omega
      rw [hr, List.range'_succ]
      simp only [List.foldl_cons]
      rfl

theorem inverse_undo_loop_eq_fold (n : Nat) : ∀ (a fuel : Nat), a ≤ fuel →
    ∀ (x : List Nat),
    inverse_undo_loop n fuel (2 ^ a) x
      = ((List.range' 1 a).reverse).foldl (fun x l => asc_pass n (2 ^ l) x) x := by
  intro a
  induction a with
  | zero =>
    intro fuel _ x
    cases fuel with
    | zero => rfl
    | succ f =>
      simp only [inverse_undo_loop]
      norm_num
  | succ a ih =>
    intro fuel hf x
    cases fuel with
    | zero => omega
    | succ f =>
      simp only [inverse_undo_loop]
      rw [if_pos (by
        have h2 : (2 : Nat) ^ a ≥ 1 := Nat.two_pow_pos a
        have h3 : (2 : Nat) ^ (a + 1) = 2 ^ a * 2 := pow_succ 2 a
        omega)]
      rw [pow_shiftRight_one, ih f (by omega)]
      have hr : List.range' 1 (a + 1) = List.range' 1 a ++ [1 + 1 * a] :=
        List.range'_concat 1 a
      have h11 : 1 + 1 * a = a + 1 := by omega
      rw [hr, h11, List.reverse_append]
      simp only [List.reverse_cons, List.reverse_nil, List.nil_append, List.cons_append,
        List.foldl_cons]
      rfl

theorem folds_cancel (n : Nat) (Ls : List Nat) (x : List Nat) (hx : n ≤ x.length) :
    (Ls.reverse).foldl (fun x l => asc_pass n (2 ^ l) x)
      (Ls.foldl (fun x l => desc_pass n (2 ^ l) x) x) = x := by
  induction Ls generalizing x with
  | nil => rfl
  | cons a Ls ih =>
    simp only [List.foldl_cons, List.reverse_cons, List.foldl_append, List.foldl_cons,
      List.foldl_nil]
    have hlen : (desc_pass n (2 ^ a) x).length = x.length := desc_pass_length _ _ _
    rw [ih (desc_pass n (2 ^ a) x) (by omega)]
    exact asc_desc_cancel a n x hx

theorem loops_cancel (n p : Nat) (x : List Nat) (hp : 1 ≤ p) (hx : n ≤ x.length) :
    inverse_undo_loop n p (1 <<< (p - 1)) (undo_loop n (2 <<< (p - 1)) p 2 x) = x := by
  rw [one_shl, two_shl p hp]
  have h1 := undo_loop_eq_fold n p p 1 (by omega) (by omega) x
  simp only [pow_one] at h1
  rw [h1, inverse_undo_loop_eq_fold n (p - 1) p (by omega)]
  exact folds_cancel n (List.range' 1 (p - 1)) x hx

end HilbertPy

namespace HilbertPy

/-! ### Closed forms for the Gray-code passes -/

theorem foldl_length_invariant (f : List Nat → Nat → List Nat)
    (hf : ∀ y i, (f y i).length = y.length) (L : List Nat) (x : List Nat) :
    (L.foldl f x).length = x.length := by
  induction L generalizing x with
  | nil => rfl
  | cons a L ih =>
    simp only [List.foldl_cons]
    rw [ih, hf]

/-- Prefix XOR of the first `j + 1` components of a list. -/
def pxor (x : List Nat) : Nat → Nat
  | 0 => x.getD 0 0
  | j + 1 => x.getD (j + 1) 0 ^^^ pxor x j

theorem decode_fold_getD (x : List Nat) (m : Nat) (hm : m < x.length) (j : Nat) :
    (((List.range' 1 m).reverse).foldl
      (fun y i => y.set i (y.getD i 0 ^^^ y.getD (i - 1) 0)) x).getD j 0
      = if 1 ≤ j ∧ j ≤ m then x.getD j 0 ^^^ x.getD (j - 1) 0 else x.getD j 0 := by
  induction m generalizing x with
  | zero =>
    simp only [List.range', List.reverse_nil, List.foldl_nil]
    rw [if_neg (by omega)]
  | succ m ih =>
    have hconc : List.range' 1 (m + 1) = List.range' 1 m ++ [1 + 1 * m] :=
      List.range'_concat 1 m
    have h11 : 1 + 1 * m = m + 1 := by omega
    rw [hconc, h11, List.reverse_append]
    simp only [List.reverse_cons, List.reverse_nil, List.nil_append, List.cons_append,
      List.foldl_cons]
    set y := x.set (m + 1) (x.getD (m + 1) 0 ^^^ x.getD (m + 1 - 1) 0) with hy
    have hylen : y.length = x.length := by
      rw [hy]
      simp
    rw [ih y (by omega)]
    have hyget : ∀ k, k ≠ m + 1 → y.getD k 0 = x.getD k 0 := by
      intro k hk
      rw [hy, getD_set, if_neg (by intro hcc; exact hk hcc.1.symm)]
    have hytop : y.getD (m + 1) 0 = x.getD (m + 1) 0 ^^^ x.getD m 0 := by
      rw [hy, getD_set, if_pos ⟨rfl, by omega⟩]
      norm_num
    by_cases hj : 1 ≤ j ∧ j ≤ m
    · rw [if_pos hj, if_pos (by omega), hyget j (by omega), hyget (j - 1) (by omega)]
    · rw [if_neg hj]
      by_cases hj2 : j = m + 1
      · subst hj2
        rw [if_pos (by omega)]
        have hs : m + 1 - 1 = m := by omega
        rw [hytop, hs]
      · rw [if_neg (by omega), hyget j (by omega)]

theorem encode_fold_getD (x : List Nat) (m : Nat) (hm : m < x.length) (j : Nat) :
    ((List.range' 1 m).foldl
      (fun y i => y.set i (y.getD i 0 ^^^ y.getD (i - 1) 0)) x).getD j 0
      = if 1 ≤ j ∧ j ≤ m then pxor x j else x.getD j 0 := by
  induction m generalizing j with
  | zero =>
    simp only [List.range', List.foldl_nil]
    rw [if_neg (by omega)]
  | succ m ih =>
    have hconc : List.range' 1 (m + 1) = List.range' 1 m ++ [1 + 1 * m] :=
      List.range'_concat 1 m
    have h11 : 1 + 1 * m = m + 1 := by omega
    rw [hconc, h11, List.foldl_append]
    simp only [List.foldl_cons, List.foldl_nil]
    have hzlen : ((List.range' 1 m).foldl
        (fun y i => y.set i (y.getD i 0 ^^^ y.getD (i - 1) 0)) x).length = x.length :=
      foldl_length_invariant _ (by intro y i; simp) _ _
    rw [getD_set]
    have hpm : (if 1 ≤ m ∧ m ≤ m then pxor x m else x.getD m 0) = pxor x m := by
      by_cases h1m : 1 ≤ m
      · rw [if_pos ⟨h1m, le_refl m⟩]
      · have hm0 : m = 0 := by omega
        subst hm0
        rw [if_neg (by omega)]
        rfl
    by_cases hj : m + 1 = j
    · subst hj
      rw [if_pos ⟨rfl, by omega⟩]
      have hs : m + 1 - 1 = m := by omega
      rw [hs, ih (by omega) (m + 1), ih (by omega) m]
      rw [if_neg (by omega), hpm, if_pos (by omega)]
      rfl
    · rw [if_neg (by intro hcc; exact hj hcc.1), ih (by omega) j]
      by_cases hj2 : 1 ≤ j ∧ j ≤ m
      · rw [if_pos hj2, if_pos (by omega)]
      · rw [if_neg hj2, if_neg (by omega)]

theorem xorall_fold_getD (x : List Nat) (m : Nat) (hm : m ≤ x.length) (t j : Nat) :
    ((List.range m).foldl (fun y i => y.set i (y.getD i 0 ^^^ t)) x).getD j 0
      = if j < m then x.getD j 0 ^^^ t else x.getD j 0 := by
  induction m generalizing j with
  | zero => simp
  | succ m ih =>
    rw [List.range_succ, List.foldl_append]
    simp only [List.foldl_cons, List.foldl_nil]
    have hzlen : ((List.range m).foldl (fun y i => y.set i (y.getD i 0 ^^^ t)) x).length
        = x.length := foldl_length_invariant _ (by intro y i; simp) _ _
    rw [getD_set]
    by_cases hj : m = j
    · subst hj
      rw [if_pos ⟨rfl, by omega⟩, ih (by omega) m, if_neg (by omega), if_pos (by omega)]
    · rw [if_neg (by intro hcc; exact hj hcc.1), ih (by omega) j]
      by_cases hj2 : j < m
      · rw [if_pos hj2, if_pos (by omega)]
      · rw [if_neg hj2, if_neg (by omega)]

end HilbertPy

namespace HilbertPy

/-! ### The Gray correction value `t` computed by `gray_t_loop` -/

theorem and_two_pow_ne (w l : Nat) : (w &&& 2 ^ l ≠ 0) ↔ w.testBit l = true := by
  rw [Nat.and_two_pow]
  cases h : w.testBit l
  · simp
  · simp only [Bool.toNat_true, Nat.one_mul]
    have := Nat.two_pow_pos l
    constructor
    · intro
      trivial
    · intro
      omega

theorem gray_t_loop_linear (v : Nat) : ∀ fuel Q t,
    gray_t_loop v fuel Q t = t ^^^ gray_t_loop v fuel Q 0 := by
  intro fuel
  induction fuel with
  | zero =>
    intro Q t
    simp only [gray_t_loop]
    rw [Nat.xor_zero]
  | succ fuel ih =>
    intro Q t
    simp only [gray_t_loop]
    by_cases h : 1 < Q
    · rw [if_pos h, if_pos h]
      rw [ih]
      rw [ih _ (if v &&& Q ≠ 0 then 0 ^^^ (Q - 1) else 0)]
      by_cases hc : v &&& Q ≠ 0
      · rw [if_pos hc, if_pos hc, Nat.zero_xor, Nat.xor_assoc]
      · rw [if_neg hc, if_neg hc, Nat.zero_xor]
    · rw [if_neg h, if_neg h, Nat.xor_zero]

/-- Bit `j` of the XOR of `Q - 1` over the set bit-planes of `w` between
levels `j + 1` and `m`: the parity accumulator for `gray_t_loop`. -/
def tpar (w j : Nat) : Nat → Bool
  | 0 => false
  | m + 1 => ((decide (j < m + 1)) && w.testBit (m + 1)) ^^ tpar w j m

theorem gray_t_loop_testBit (w : Nat) : ∀ m fuel, m ≤ fuel → ∀ j,
    (gray_t_loop w fuel (2 ^ m) 0).testBit j = tpar w j m := by
  intro m
  induction m with
  | zero =>
    intro fuel _ j
    cases fuel with
    | zero => simp [gray_t_loop, tpar]
    | succ f =>
      simp only [gray_t_loop]
      rw [if_neg (by norm_num)]
      simp [tpar]
  | succ m ih =>
    intro fuel hf j
    cases fuel with
    | zero => omega
    | succ f =>
      simp only [gray_t_loop]
      rw [if_pos (by
        have h2 := Nat.two_pow_pos m
        have h3 : (2 : Nat) ^ (m + 1) = 2 ^ m * 2 := pow_succ 2 m
        omega)]
      rw [pow_shiftRight_one, gray_t_loop_linear, Nat.testBit_xor, ih f (by omega) j]
      show _ = tpar w j (m + 1)
      simp only [tpar]
      by_cases hc : w &&& 2 ^ (m + 1) ≠ 0
      · rw [if_pos hc, Nat.zero_xor]
        have hw : w.testBit (m + 1) = true := (and_two_pow_ne w (m + 1)).mp hc
        rw [hw, Bool.and_true, Nat.testBit_two_pow_sub_one]
      · rw [if_neg hc]
        have hw : w.testBit (m + 1) = false := by
          cases h : w.testBit (m + 1)
          · rfl
          · exact absurd ((and_two_pow_ne w (m + 1)).mpr h) hc
        rw [hw, Bool.and_false, Nat.zero_testBit, Bool.false_xor]

theorem tpar_gray (v : Nat) : ∀ m j, tpar (v ^^^ (v >>> 1)) j m
    = if j ≤ m then (v.testBit (j + 1) ^^ v.testBit (m + 1)) else false := by
  intro m
  induction m with
  | zero =>
    intro j
    by_cases hj : j = 0
    · subst hj
      rw [if_pos (le_refl 0)]
      simp [tpar]
    · rw [if_neg (by omega)]
      simp [tpar]
  | succ m ih =>
    intro j
    simp only [tpar]
    rw [ih j]
    have hg : (v ^^^ (v >>> 1)).testBit (m + 1)
        = (v.testBit (m + 1) ^^ v.testBit (m + 2)) := by
      rw [Nat.testBit_xor, Nat.testBit_shiftRight]
      have h1 : 1 + (m + 1) = m + 2 := by omega
      rw [h1]
    rw [hg]
    by_cases h1 : j ≤ m
    · rw [if_pos h1, if_pos (by omega), decide_eq_true (by omega : j < m + 1),
        Bool.true_and]
      cases hA : v.testBit (j + 1) <;> cases hB : v.testBit (m + 1) <;>
        cases hC : v.testBit (m + 2) <;> rfl
    · by_cases h2 : j = m + 1
      · subst h2
        rw [if_neg h1, if_pos (le_refl (m + 1))]
        have hd : decide (m + 1 < m + 1) = false := by simp
        rw [hd, Bool.false_and, Bool.false_xor, Bool.xor_self]
      · rw [if_neg h1, if_neg (by omega)]
        have hd : decide (j < m + 1) = false := by
          simp only [decide_eq_false_iff_not]
          omega
        rw [hd, Bool.false_and, Bool.false_xor]

theorem gray_t_loop_gray (m v : Nat) (hv : v < 2 ^ (m + 1)) (fuel : Nat)
    (hfuel : m ≤ fuel) :
    gray_t_loop (v ^^^ (v >>> 1)) fuel (2 ^ m) 0 = v >>> 1 := by
  apply Nat.eq_of_testBit_eq
  intro j
  rw [gray_t_loop_testBit _ m fuel hfuel, tpar_gray, Nat.testBit_shiftRight]
  have h1j : 1 + j = j + 1 := by omega
  rw [h1j]
  by_cases hj : j ≤ m
  · rw [if_pos hj]
    have hm : v.testBit (m + 1) = Nat.testBit v (m + 1) := rfl
    rw [Nat.testBit_lt_two_pow hv, Bool.xor_false]
  · rw [if_neg hj]
    have h2 : v < 2 ^ (j + 1) :=
      lt_of_lt_of_le hv (Nat.pow_le_pow_right (by norm_num) (by omega))
    rw [Nat.testBit_lt_two_pow h2]

end HilbertPy

namespace HilbertPy

/-! ### The Gray decode and encode stages as state transforms -/

/-- Lines 151–155 of `transpose2axes`: the Gray-decode stage acting on the
transpose state. -/
def gray_decode (n : Nat) (x : List Nat) : List Nat :=
  let t := x.getD (n - 1) 0 >>> 1
  let x1 := ((List.range' 1 (n - 1)).reverse).foldl
    (fun x i => x.set i (x.getD i 0 ^^^ x.getD (i - 1) 0)) x
  x1.set 0 (x1.getD 0 0 ^^^ t)

/-- Lines 199–209 of `axes2transpose`: the Gray-encode stage acting on the
state produced by the inverse correction loop. -/
def gray_encode (n fuel M : Nat) (x : List Nat) : List Nat :=
  let x1 := (List.range' 1 (n - 1)).foldl
    (fun x i => x.set i (x.getD i 0 ^^^ x.getD (i - 1) 0)) x
  let t := gray_t_loop (x1.getD (n - 1) 0) fuel M 0
  (List.range n).foldl (fun x i => x.set i (x.getD i 0 ^^^ t)) x1

theorem transpose2axes_eq_stages (iH : Int) (p n : Nat) :
    transpose2axes iH p n
      = undo_loop n (2 <<< (p - 1)) p 2 (gray_decode n (_pack_iH_into_x iH p n)) := rfl

theorem axes2transpose_update_eq_stages (x : List Nat) (p n : Nat) :
    axes2transpose_update x p n
      = gray_encode n p (1 <<< (p - 1)) (inverse_undo_loop n p (1 <<< (p - 1)) x) := rfl

theorem gray_decode_length (n : Nat) (x : List Nat) :
    (gray_decode n x).length = x.length := by
  unfold gray_decode
  dsimp only
  rw [List.length_set, foldl_length_invariant _ (by intro y i; simp)]

theorem gray_decode_getD (n : Nat) (x : List Nat) (hlen : x.length = n) (hn : 1 ≤ n)
    (j : Nat) (hj : j < n) :
    (gray_decode n x).getD j 0
      = if j = 0 then x.getD 0 0 ^^^ (x.getD (n - 1) 0 >>> 1)
        else x.getD j 0 ^^^ x.getD (j - 1) 0 := by
  unfold gray_decode
  dsimp only
  have hx1len : (((List.range' 1 (n - 1)).reverse).foldl
      (fun x i => x.set i (x.getD i 0 ^^^ x.getD (i - 1) 0)) x).length = x.length :=
    foldl_length_invariant _ (by intro y i; simp) _ _
  rw [getD_set]
  by_cases hj0 : j = 0
  · subst hj0
    rw [if_pos ⟨rfl, by omega⟩, if_pos rfl,
      decode_fold_getD x (n - 1) (by omega) 0, if_neg (by omega)]
  · rw [if_neg (by intro hcc; exact hj0 hcc.1.symm), if_neg hj0,
      decode_fold_getD x (n - 1) (by omega) j, if_pos (by omega)]

theorem pxor_gray_decode (n : Nat) (x : List Nat) (hlen : x.length = n) (hn : 1 ≤ n) :
    ∀ j, j < n → pxor (gray_decode n x) j
      = x.getD j 0 ^^^ (x.getD (n - 1) 0 >>> 1) := by
  intro j
  induction j with
  | zero =>
    intro hj
    show (gray_decode n x).getD 0 0 = _
    rw [gray_decode_getD n x hlen hn 0 hj, if_pos rfl]
  | succ j ih =>
    intro hj
    show (gray_decode n x).getD (j + 1) 0 ^^^ pxor (gray_decode n x) j = _
    rw [gray_decode_getD n x hlen hn (j + 1) hj, if_neg (by omega), ih (by omega)]
    have hs : j + 1 - 1 = j := by omega
    rw [hs, Nat.xor_assoc, ← Nat.xor_assoc (x.getD j 0) (x.getD j 0), Nat.xor_self,
      Nat.zero_xor]

theorem gray_stage_cancel (n p : Nat) (x : List Nat) (hn : 1 ≤ n) (hp : 1 ≤ p)
    (hlen : x.length = n) (htop : x.getD (n - 1) 0 < 2 ^ p) :
    gray_encode n p (1 <<< (p - 1)) (gray_decode n x) = x := by
  unfold gray_encode
  dsimp only
  set y := gray_decode n x with hy
  have hylen : y.length = n := by
    rw [hy, gray_decode_length, hlen]
  have hx1 : ∀ j, j < n → ((List.range' 1 (n - 1)).foldl
      (fun x i => x.set i (x.getD i 0 ^^^ x.getD (i - 1) 0)) y).getD j 0
        = x.getD j 0 ^^^ (x.getD (n - 1) 0 >>> 1) := by
    intro j hj
    rw [encode_fold_getD y (n - 1) (by omega) j]
    by_cases hjc : 1 ≤ j ∧ j ≤ n - 1
    · rw [if_pos hjc]
      exact pxor_gray_decode n x hlen hn j hj
    · have hj0 : j = 0 := by omega
      subst hj0
      rw [if_neg hjc, hy, gray_decode_getD n x hlen hn 0 (by omega), if_pos rfl]
  have hx1len : ((List.range' 1 (n - 1)).foldl
      (fun x i => x.set i (x.getD i 0 ^^^ x.getD (i - 1) 0)) y).length = n :=
    (foldl_length_invariant _ (by intro z i; simp) _ _).trans hylen
  have ht : gray_t_loop (((List.range' 1 (n - 1)).foldl
      (fun x i => x.set i (x.getD i 0 ^^^ x.getD (i - 1) 0)) y).getD (n - 1) 0)
      p (1 <<< (p - 1)) 0 = x.getD (n - 1) 0 >>> 1 := by
    rw [hx1 (n - 1) (by omega), one_shl]
    have hpp : p - 1 + 1 = p := by omega
    exact gray_t_loop_gray (p - 1) (x.getD (n - 1) 0) (by rw [hpp]; exact htop) p (by omega)
  rw [ht]
  apply List.ext_getElem
  · rw [foldl_length_invariant _ (by intro z i; simp), hx1len, hlen]
  · intro i h1 h2
    have hilen : i < n := by
      rw [foldl_length_invariant _ (by intro z i; simp), hx1len] at h1
      exact h1
    rw [getD_eq_getElem _ _ h1, getD_eq_getElem _ _ h2]
    rw [xorall_fold_getD _ n (by omega) _ i, if_pos hilen, hx1 i hilen,
      Nat.xor_cancel_right]

end HilbertPy

namespace HilbertPy

/-! ### The full round trip -/

theorem roundtrip (d p n : Nat) (hp : 1 ≤ p) (hn : 1 ≤ n) (hd : d < 2 ^ (n * p)) :
    axes2transpose (transpose2axes (d : Int) p n) p n = d := by
  have hd2 : d < 2 ^ (p * n) := by
    rw [Nat.mul_comm]
    exact hd
  rw [transpose2axes_eq_stages]
  unfold axes2transpose
  rw [axes2transpose_update_eq_stages]
  have hglen : (gray_decode n (_pack_iH_into_x (d : Int) p n)).length = n := by
    rw [gray_decode_length, _pack_length]
  rw [loops_cancel n p _ hp (by omega)]
  rw [gray_stage_cancel n p _ hn hp (_pack_length _ _ _) (_pack_getD_lt _ _ _ _)]
  exact extract_pack d p n hd2

/-! ### Range of the output coordinates -/

theorem undo_loop_length (n N : Nat) : ∀ fuel Q x,
    (undo_loop n N fuel Q x).length = x.length := by
  intro fuel
  induction fuel with
  | zero => intro Q x; rfl
  | succ fuel ih =>
    intro Q x
    simp only [undo_loop]
    split
    · rw [ih, foldl_undo_length]
    · rfl

theorem transpose2axes_length (iH : Int) (p n : Nat) :
    (transpose2axes iH p n).length = n := by
  rw [transpose2axes_eq_stages, undo_loop_length, gray_decode_length, _pack_length]

theorem undo_step_getD_lt (Q p : Nat) (hQ : Q - 1 < 2 ^ p) (x : List Nat) (i : Nat)
    (hb : ∀ j, x.getD j 0 < 2 ^ p) : ∀ j, (undo_step Q x i).getD j 0 < 2 ^ p := by
  intro j
  have htb : (x.getD 0 0 ^^^ x.getD i 0) &&& (Q - 1) < 2 ^ p :=
    lt_of_le_of_lt Nat.and_le_right hQ
  unfold undo_step
  dsimp only
  split
  · rw [getD_set]
    split
    · exact Nat.xor_lt_two_pow (hb 0) hQ
    · exact hb j
  · rw [getD_set]
    split
    · apply Nat.xor_lt_two_pow _ htb
      rw [getD_set]
      split
      · exact Nat.xor_lt_two_pow (hb 0) htb
      · exact hb i
    · rw [getD_set]
      split
      · exact Nat.xor_lt_two_pow (hb 0) htb
      · exact hb j

theorem foldl_undo_bound (Q p : Nat) (hQ : Q - 1 < 2 ^ p) (L : List Nat) :
    ∀ x : List Nat, (∀ j, x.getD j 0 < 2 ^ p) →
    ∀ j, (L.foldl (fun y i => undo_step Q y i) x).getD j 0 < 2 ^ p := by
  induction L with
  | nil => intro x hb j; exact hb j
  | cons a L ih =>
    intro x hb j
    simp only [List.foldl_cons]
    exact ih (undo_step Q x a) (undo_step_getD_lt Q p hQ x a hb) j

theorem levels_fold_bound (n p : Nat) (Ls : List Nat)
    (hLs : ∀ l ∈ Ls, 2 ^ l - 1 < 2 ^ p) :
    ∀ x : List Nat, (∀ j, x.getD j 0 < 2 ^ p) →
    ∀ j, (Ls.foldl (fun x l => desc_pass n (2 ^ l) x) x).getD j 0 < 2 ^ p := by
  induction Ls with
  | nil => intro x hb j; exact hb j
  | cons a Ls ih =>
    intro x hb j
    simp only [List.foldl_cons]
    exact ih (fun l hl => hLs l (by simp [hl])) _
      (foldl_undo_bound (2 ^ a) p (hLs a (by simp)) _ x hb) j

theorem gray_decode_bound (n p : Nat) (x : List Nat) (hlen : x.length = n) (hn : 1 ≤ n)
    (hb : ∀ j, x.getD j 0 < 2 ^ p) : ∀ j, (gray_decode n x).getD j 0 < 2 ^ p := by
  intro j
  by_cases hj : j < n
  · rw [gray_decode_getD n x hlen hn j hj]
    split
    · apply Nat.xor_lt_two_pow (hb 0)
      calc x.getD (n - 1) 0 >>> 1 ≤ x.getD (n - 1) 0 := by
            rw [Nat.shiftRight_eq_div_pow, pow_one]
            exact Nat.div_le_self _ _
      _ < 2 ^ p := hb (n - 1)
    · exact Nat.xor_lt_two_pow (hb j) (hb (j - 1))
  · rw [List.getD_eq_getElem?_getD, List.getElem?_eq_none (by
      rw [gray_decode_length, hlen]
      omega)]
    exact Nat.two_pow_pos p

theorem transpose2axes_bound (iH : Int) (p n : Nat) (hp : 1 ≤ p) (hn : 1 ≤ n) :
    ∀ j, (transpose2axes iH p n).getD j 0 < 2 ^ p := by
  intro j
  rw [transpose2axes_eq_stages, two_shl p hp]
  have h1 := undo_loop_eq_fold n p p 1 (by omega) (by omega)
    (gray_decode n (_pack_iH_into_x iH p n))
  simp only [pow_one] at h1
  rw [h1]
  apply levels_fold_bound n p (List.range' 1 (p - 1))
  · intro l hl
    rw [List.mem_range'_1] at hl
    have h2 : (2 : Nat) ^ l ≤ 2 ^ p := Nat.pow_le_pow_right (by norm_num) (by omega)
    have h3 := Nat.two_pow_pos l
    omega
  · exact gray_decode_bound n p _ (_pack_length _ _ _) hn (_pack_getD_lt _ _ _)

end HilbertPy

namespace HilbertPy

/-! ### Bijectivity of the index-to-coordinates map -/

theorem t2a_inj (p n d1 d2 : Nat) (hp : 1 ≤ p) (hn : 1 ≤ n)
    (h1 : d1 < 2 ^ (n * p)) (h2 : d2 < 2 ^ (n * p))
    (he : transpose2axes (d1 : Int) p n = transpose2axes (d2 : Int) p n) : d1 = d2 := by
  have r1 := roundtrip d1 p n hp hn h1
  have r2 := roundtrip d2 p n hp hn h2
  rw [he, r2] at r1
  omega

theorem t2a_surj (p n : Nat) (hp : 1 ≤ p) (hn : 1 ≤ n) (x : List Nat)
    (hlen : x.length = n) (hb : ∀ c ∈ x, c < 2 ^ p) :
    ∃ d : Nat, d < 2 ^ (n * p) ∧ transpose2axes (d : Int) p n = x := by
  let F : Fin (2 ^ (n * p)) → (Fin n → Fin (2 ^ p)) := fun d i =>
    ⟨(transpose2axes ((d : Nat) : Int) p n).getD i 0, transpose2axes_bound _ p n hp hn i⟩
  have hinj : Function.Injective F := by
    intro d1 d2 he
    apply Fin.ext
    apply t2a_inj p n d1 d2 hp hn d1.isLt d2.isLt
    apply List.ext_getElem (by rw [transpose2axes_length, transpose2axes_length])
    intro i hi1 hi2
    have hin : i < n := by
      rw [transpose2axes_length] at hi1
      exact hi1
    have hv := congrArg Fin.val (congrFun he ⟨i, hin⟩)
    simp only [F] at hv
    rw [getD_eq_getElem _ _ hi1, getD_eq_getElem _ _ hi2]
    exact hv
  have hcard : Fintype.card (Fin (2 ^ (n * p))) = Fintype.card (Fin n → Fin (2 ^ p)) := by
    rw [Fintype.card_fun, Fintype.card_fin, Fintype.card_fin, Fintype.card_fin, ← pow_mul]
    congr 1
    ring
  have hbij : Function.Bijective F :=
    (Fintype.bijective_iff_injective_and_card F).mpr ⟨hinj, hcard⟩
  have hgb : ∀ i : Fin n, x.getD i.val 0 < 2 ^ p := by
    intro i
    apply hb
    have hlt : i.val < x.length := by
      rw [hlen]
      exact i.isLt
    rw [← getD_eq_getElem _ _ hlt]
    exact List.getElem_mem _
  obtain ⟨d, hd⟩ := hbij.2 (fun i => ⟨x.getD i.val 0, hgb i⟩)
  refine ⟨d.val, ?_, ?_⟩
  · exact_mod_cast d.isLt
  apply List.ext_getElem (by rw [transpose2axes_length, hlen])
  intro i hi1 hi2
  have hin : i < n := by
    rw [transpose2axes_length] at hi1
    exact hi1
  have hv := congrArg Fin.val (congrFun hd ⟨i, hin⟩)
  simp only [F] at hv
  rw [getD_eq_getElem _ _ hi1, getD_eq_getElem _ _ hi2]
  exact hv

end HilbertPy

namespace HilbertPy

/-! ### Out-of-range indices are reduced modulo the bit width -/

theorem _bit_at_emod (iH : Int) (K k : Nat) (hk : k < K) :
    _bit_at (iH % ((2 : Int) ^ K)) k = _bit_at iH k := by
  rw [_bit_at_eq, _bit_at_eq, pybit_emod iH K k hk]

theorem _pack_emod (iH : Int) (p n : Nat) :
    _pack_iH_into_x (iH % ((2 : Int) ^ (n * p))) p n = _pack_iH_into_x iH p n := by
  have hstr : (List.range (p * n)).map (fun i => _bit_at (iH % ((2 : Int) ^ (n * p))) i)
      = (List.range (p * n)).map (fun i => _bit_at iH i) := by
    apply List.map_congr_left
    intro i hi
    rw [List.mem_range] at hi
    have hnp : p * n = n * p := Nat.mul_comm p n
    exact _bit_at_emod iH (n * p) i (by omega)
  unfold _pack_iH_into_x
  dsimp only
  rw [hstr]

theorem t2a_emod (iH : Int) (p n : Nat) :
    transpose2axes (iH % ((2 : Int) ^ (n * p))) p n = transpose2axes iH p n := by
  rw [transpose2axes_eq_stages, transpose2axes_eq_stages, _pack_emod]

/-! ### The zero index maps to the origin -/

theorem replicate_getD (n j : Nat) : (List.replicate n (0 : Nat)).getD j 0 = 0 := by
  rw [List.getD_eq_getElem?_getD, List.getElem?_replicate]
  split <;> rfl

theorem replicate_set (n j : Nat) :
    (List.replicate n (0 : Nat)).set j 0 = List.replicate n 0 := by
  by_cases hj : j < n
  · have h := set_self (List.replicate n (0 : Nat)) j (by simpa using hj)
    rw [replicate_getD] at h
    exact h
  · exact List.set_eq_of_length_le (by simpa using hj)

theorem pack_zero (p n : Nat) : _pack_iH_into_x (0 : Int) p n = List.replicate n 0 := by
  apply List.ext_getElem (by rw [_pack_length]; simp)
  intro i h1 h2
  rw [getD_eq_getElem _ _ h1, getD_eq_getElem _ _ h2]
  have hi : i < n := by
    rw [_pack_length] at h1
    exact h1
  rw [replicate_getD]
  apply Nat.eq_of_testBit_eq
  intro k
  rw [_pack_testBit 0 p n i k hi, Nat.zero_testBit]
  have hz : pybit 0 (k * n + (n - 1 - i)) = false := by
    unfold pybit
    rw [Int.zero_emod]
    simp only [decide_eq_false_iff_not]
    intro hc
    have hpos : (0 : Int) < 2 ^ (k * n + (n - 1 - i)) := pow_pos (by norm_num) _
    omega
  rw [hz, Bool.and_false]

theorem undo_step_zero (Q n i : Nat) :
    undo_step Q (List.replicate n 0) i = List.replicate n 0 := by
  unfold undo_step
  dsimp only
  rw [if_neg (by rw [replicate_getD]; simp)]
  have ht : ((List.replicate n (0 : Nat)).getD 0 0 ^^^ (List.replicate n 0).getD i 0)
      &&& (Q - 1) = 0 := by
    rw [replicate_getD, replicate_getD]
    simp
  rw [ht]
  simp only [Nat.xor_zero]
  rw [replicate_getD, replicate_set, replicate_getD, replicate_set]

theorem foldl_undo_zero (Q : Nat) (L : List Nat) (n : Nat) :
    L.foldl (fun y i => undo_step Q y i) (List.replicate n 0) = List.replicate n 0 := by
  induction L with
  | nil => rfl
  | cons a L ih =>
    simp only [List.foldl_cons]
    rw [undo_step_zero]
    exact ih

theorem undo_loop_zero (n N : Nat) : ∀ fuel Q,
    undo_loop n N fuel Q (List.replicate n 0) = List.replicate n 0 := by
  intro fuel
  induction fuel with
  | zero => intro Q; rfl
  | succ fuel ih =>
    intro Q
    simp only [undo_loop]
    split
    · rw [foldl_undo_zero]
      exact ih _
    · rfl

theorem foldl_gray_zero (L : List Nat) (n : Nat) :
    L.foldl (fun y i => y.set i (y.getD i 0 ^^^ y.getD (i - 1) 0))
      (List.replicate n 0) = List.replicate n 0 := by
  induction L with
  | nil => rfl
  | cons a L ih =>
    simp only [List.foldl_cons]
    rw [replicate_getD, replicate_getD, Nat.zero_xor, replicate_set]
    exact ih

theorem gray_decode_zero (n : Nat) :
    gray_decode n (List.replicate n 0) = List.replicate n 0 := by
  unfold gray_decode
  dsimp only
  rw [foldl_gray_zero, replicate_getD, replicate_getD, Nat.zero_shiftRight,
    Nat.zero_xor, replicate_set]

theorem transpose2axes_zero (p n : Nat) :
    transpose2axes (0 : Int) p n = List.replicate n 0 := by
  rw [transpose2axes_eq_stages, pack_zero, gray_decode_zero, undo_loop_zero]

/-! ### Iteration counts of the correction loops -/

theorem undo_loop_count_eq (b : Nat) : ∀ fuel a, a ≤ b → b - a ≤ fuel →
    undo_loop_count (2 ^ b) fuel (2 ^ a) = b - a := by
  intro fuel
  induction fuel with
  | zero =>
    intro a ha hf
    have hab : b = a := by omega
    subst hab
    simp [undo_loop_count]
  | succ fuel ih =>
    intro a ha hf
    by_cases hab : a = b
    · subst hab
      simp [undo_loop_count]
    · have hlt : a < b := by omega
      have hne : (2 : Nat) ^ a ≠ 2 ^ b := by
        intro hc
        have := Nat.pow_lt_pow_right (by norm_num : (1 : Nat) < 2) hlt
        omega
      simp only [undo_loop_count]
      rw [if_pos hne]
      have hsh : (2 : Nat) ^ a <<< 1 = 2 ^ (a + 1) := by
        rw [Nat.shiftLeft_eq, ← pow_add]
      rw [hsh, ih (a + 1) (by omega) (by omega)]
      omega

theorem halving_count_eq : ∀ a fuel, a ≤ fuel → halving_count fuel (2 ^ a) = a := by
  intro a
  induction a with
  | zero =>
    intro fuel _
    cases fuel with
    | zero => rfl
    | succ f =>
      simp only [halving_count]
      norm_num
  | succ a ih =>
    intro fuel hf
    cases fuel with
    | zero => omega
    | succ f =>
      simp only [halving_count]
      rw [if_pos (by
        have h2 := Nat.two_pow_pos a
        have h3 : (2 : Nat) ^ (a + 1) = 2 ^ a * 2 := pow_succ 2 a
        omega)]
      rw [pow_shiftRight_one, ih f (by omega)]

end HilbertPy

namespace HilbertPy

/-! ### The in-place state of `axes2transpose` -/

theorem inverse_undo_loop_length (n : Nat) : ∀ fuel Q (x : List Nat),
    (inverse_undo_loop n fuel Q x).length = x.length := by
  intro fuel
  induction fuel with
  | zero => intro Q x; rfl
  | succ fuel ih =>
    intro Q x
    simp only [inverse_undo_loop]
    split
    · rw [ih, foldl_undo_length]
    · rfl

theorem levels_fold_bound_asc (n p : Nat) (Ls : List Nat)
    (hLs : ∀ l ∈ Ls, 2 ^ l - 1 < 2 ^ p) :
    ∀ x : List Nat, (∀ j, x.getD j 0 < 2 ^ p) →
    ∀ j, (Ls.foldl (fun x l => asc_pass n (2 ^ l) x) x).getD j 0 < 2 ^ p := by
  induction Ls with
  | nil => intro x hb j; exact hb j
  | cons a Ls ih =>
    intro x hb j
    simp only [List.foldl_cons]
    exact ih (fun l hl => hLs l (by simp [hl])) _
      (foldl_undo_bound (2 ^ a) p (hLs a (by simp)) _ x hb) j

theorem inverse_undo_loop_bound (n p a fuel : Nat) (ha : a ≤ p) (hfuel : a ≤ fuel)
    (x : List Nat) (hb : ∀ j, x.getD j 0 < 2 ^ p) :
    ∀ j, (inverse_undo_loop n fuel (2 ^ a) x).getD j 0 < 2 ^ p := by
  rw [inverse_undo_loop_eq_fold n a fuel hfuel]
  apply levels_fold_bound_asc n p _ _ x hb
  intro l hl
  rw [List.mem_reverse, List.mem_range'_1] at hl
  have h2 : (2 : Nat) ^ l ≤ 2 ^ p := Nat.pow_le_pow_right (by norm_num) (by omega)
  have h3 := Nat.two_pow_pos l
  omega

theorem pxor_lt (x : List Nat) (p : Nat) (hb : ∀ j, x.getD j 0 < 2 ^ p) :
    ∀ j, pxor x j < 2 ^ p := by
  intro j
  induction j with
  | zero => exact hb 0
  | succ j ih => exact Nat.xor_lt_two_pow (hb (j + 1)) ih

theorem gray_t_loop_lt (p v : Nat) : ∀ fuel Q t, Q ≤ 2 ^ p → t < 2 ^ p →
    gray_t_loop v fuel Q t < 2 ^ p := by
  intro fuel
  induction fuel with
  | zero => intro Q t _ ht; exact ht
  | succ fuel ih =>
    intro Q t hQ ht
    simp only [gray_t_loop]
    split
    · next h =>
      apply ih _ _ (by
        rw [Nat.shiftRight_eq_div_pow, pow_one]
        omega)
      split
      · exact Nat.xor_lt_two_pow ht (by omega)
      · exact ht
    · exact ht

theorem gray_encode_length (n fuel M : Nat) (x : List Nat) :
    (gray_encode n fuel M x).length = x.length := by
  unfold gray_encode
  dsimp only
  rw [foldl_length_invariant _ (by intro z i; simp),
    foldl_length_invariant _ (by intro z i; simp)]

theorem gray_encode_bound (n fuel M p : Nat) (x : List Nat) (hlen : x.length = n)
    (hn : 1 ≤ n) (hM : M ≤ 2 ^ p) (hb : ∀ j, x.getD j 0 < 2 ^ p) :
    ∀ j, (gray_encode n fuel M x).getD j 0 < 2 ^ p := by
  intro j
  by_cases hj : j < n
  · unfold gray_encode
    dsimp only
    have hx1b : ∀ k, ((List.range' 1 (n - 1)).foldl
        (fun x i => x.set i (x.getD i 0 ^^^ x.getD (i - 1) 0)) x).getD k 0 < 2 ^ p := by
      intro k
      rw [encode_fold_getD x (n - 1) (by omega) k]
      split
      · exact pxor_lt x p hb k
      · exact hb k
    have hx1len : ((List.range' 1 (n - 1)).foldl
        (fun x i => x.set i (x.getD i 0 ^^^ x.getD (i - 1) 0)) x).length = n :=
      (foldl_length_invariant _ (by intro z i; simp) _ _).trans hlen
    rw [xorall_fold_getD _ n (by omega) _ j, if_pos hj]
    exact Nat.xor_lt_two_pow (hx1b j)
      (gray_t_loop_lt p _ fuel M 0 hM (Nat.two_pow_pos p))
  · rw [List.getD_eq_getElem?_getD, List.getElem?_eq_none (by
      rw [gray_encode_length, hlen]
      omega)]
    exact Nat.two_pow_pos p

theorem axes2transpose_update_length (x : List Nat) (p n : Nat) :
    (axes2transpose_update x p n).length = x.length := by
  rw [axes2transpose_update_eq_stages, gray_encode_length, inverse_undo_loop_length]

theorem bound_of_mem (x : List Nat) (p : Nat) (hb : ∀ c ∈ x, c < 2 ^ p) :
    ∀ j, x.getD j 0 < 2 ^ p := by
  intro j
  by_cases hj : j < x.length
  · rw [← getD_eq_getElem _ _ hj]
    exact hb _ (List.getElem_mem _)
  · rw [List.getD_eq_getElem?_getD, List.getElem?_eq_none (by omega)]
    exact Nat.two_pow_pos p

theorem axes2transpose_update_bound (x : List Nat) (p n : Nat) (hp : 1 ≤ p)
    (hn : 1 ≤ n) (hlen : x.length = n) (hb : ∀ j, x.getD j 0 < 2 ^ p) :
    ∀ j, (axes2transpose_update x p n).getD j 0 < 2 ^ p := by
  rw [axes2transpose_update_eq_stages, one_shl]
  apply gray_encode_bound n p _ p _
    ((inverse_undo_loop_length n _ _ x).trans hlen) hn
    (Nat.pow_le_pow_right (by norm_num) (by omega))
  exact inverse_undo_loop_bound n p (p - 1) p (by omega) (by omega) x hb

theorem update_eq_pack (x : List Nat) (p n : Nat) (hp : 1 ≤ p) (hn : 1 ≤ n)
    (hlen : x.length = n) (hb : ∀ c ∈ x, c < 2 ^ p) :
    axes2transpose_update x p n = _pack_iH_into_x ((axes2transpose x p n : Nat) : Int) p n := by
  unfold axes2transpose
  exact (pack_extract (axes2transpose_update x p n) p n
    ((axes2transpose_update_length x p n).trans hlen)
    (fun j _ => axes2transpose_update_bound x p n hp hn hlen (bound_of_mem x p hb) j)).symm

end HilbertPy

namespace HilbertPy

/-! ### Silent reduction of out-of-range inputs -/

theorem neg_one_emod (K : Nat) : (-1 : Int) % ((2 : Int) ^ K) = 2 ^ K - 1 := by
  have hpos : (0 : Int) < 2 ^ K := pow_pos (by norm_num) K
  have h1 : (-1 : Int) = (2 ^ K - 1) + (-1) * 2 ^ K := by ring
  rw [h1, Int.add_mul_emod_self]
  exact Int.emod_eq_of_lt (by omega) (by omega)

theorem t2a_neg_one (p n : Nat) :
    transpose2axes (-1) p n = transpose2axes ((2 : Int) ^ (n * p) - 1) p n := by
  have h1 := t2a_emod (-1) p n
  rw [neg_one_emod] at h1
  exact h1.symm

theorem t2a_overflow (p n : Nat) :
    transpose2axes ((2 : Int) ^ (n * p)) p n = transpose2axes 0 p n := by
  have h1 := t2a_emod ((2 : Int) ^ (n * p)) p n
  rw [Int.emod_self] at h1
  exact h1.symm

theorem tpar_false (w j : Nat) : ∀ m, (∀ k, 1 ≤ k → k ≤ m → w.testBit k = false) →
    tpar w j m = false := by
  intro m
  induction m with
  | zero => intro _; rfl
  | succ m ih =>
    intro h
    simp only [tpar]
    rw [h (m + 1) (by omega) (le_refl _), Bool.and_false, Bool.false_xor]
    exact ih (fun k h1 h2 => h k h1 (by omega))

theorem gray_t_loop_high (a fuel v : Nat) (hfuel : a ≤ fuel)
    (hv : ∀ k, 1 ≤ k → k ≤ a → v.testBit k = false) :
    gray_t_loop v fuel (2 ^ a) 0 = 0 := by
  apply Nat.eq_of_testBit_eq
  intro j
  rw [gray_t_loop_testBit _ a fuel hfuel, Nat.zero_testBit, tpar_false v j a hv]

theorem gray_t_loop_zero : ∀ fuel Q, gray_t_loop 0 fuel Q 0 = 0 := by
  intro fuel
  induction fuel with
  | zero => intro Q; rfl
  | succ fuel ih =>
    intro Q
    simp only [gray_t_loop]
    split
    · rw [if_neg (by simp)]
      exact ih _
    · rfl

theorem extract_eq_zero (x : List Nat) (p n : Nat)
    (hx : ∀ j k, k < p → (x.getD j 0).testBit k = false) :
    _extract_iH_from_x x p n = 0 := by
  apply Nat.eq_of_testBit_eq
  intro m
  rw [Nat.zero_testBit]
  by_cases hm : m < p * n
  · have hn : 0 < n := by
      rcases Nat.eq_zero_or_pos n with h | h
      · subst h
        simp at hm
      · exact h
    have hk : m / n < p := (Nat.div_lt_iff_lt_mul hn).mpr hm
    have hr : m % n < n := Nat.mod_lt _ hn
    have hj : n - 1 - (m % n) < n := by omega
    have hm2 : (m / n) * n + (n - 1 - (n - 1 - (m % n))) = m := by
      have hdm := Nat.div_add_mod m n
      have hcomm : (m / n) * n = n * (m / n) := Nat.mul_comm _ _
      omega
    rw [← hm2, _extract_testBit x p n (m / n) (n - 1 - (m % n)) hk hj]
    exact hx _ _ hk
  · exact Nat.testBit_lt_two_pow
      (lt_of_lt_of_le (_extract_lt x p n) (Nat.pow_le_pow_right (by norm_num) (by omega)))

theorem undo_step_single (Q v : Nat) (hv : v &&& Q = 0) :
    undo_step Q [v] 0 = [v] := by
  unfold undo_step
  dsimp only
  rw [if_neg (by intro hh; exact hh (by simpa using hv))]
  have ht : (([v] : List Nat).getD 0 0 ^^^ [v].getD 0 0) &&& (Q - 1) = 0 := by
    simp
  rw [ht]
  simp

theorem asc_pass_single (Q v : Nat) (hv : v &&& Q = 0) :
    asc_pass 1 Q [v] = [v] := by
  unfold asc_pass
  show undo_step Q [v] 0 = [v]
  exact undo_step_single Q v hv

theorem pow_and_pow_ne (p l : Nat) (h : l ≠ p) : 2 ^ p &&& 2 ^ l = 0 := by
  rw [Nat.and_two_pow, Nat.testBit_two_pow, decide_eq_false (by omega : p ≠ l)]
  simp

theorem levels_fold_single (p : Nat) (Ls : List Nat) (hLs : ∀ l ∈ Ls, l ≠ p) :
    Ls.foldl (fun x l => asc_pass 1 (2 ^ l) x) [2 ^ p] = [2 ^ p] := by
  induction Ls with
  | nil => rfl
  | cons a Ls ih =>
    simp only [List.foldl_cons]
    rw [asc_pass_single _ _ (pow_and_pow_ne p a (hLs a (by simp)))]
    exact ih (fun l hl => hLs l (by simp [hl]))

theorem update_pow_single (p : Nat) (hp : 1 ≤ p) :
    axes2transpose_update [2 ^ p] p 1 = [2 ^ p] := by
  rw [axes2transpose_update_eq_stages, one_shl]
  have hloop : inverse_undo_loop 1 p (2 ^ (p - 1)) [2 ^ p] = [2 ^ p] := by
    rw [inverse_undo_loop_eq_fold 1 (p - 1) p (by omega)]
    apply levels_fold_single
    intro l hl
    rw [List.mem_reverse, List.mem_range'_1] at hl
    omega
  rw [hloop]
  unfold gray_encode
  dsimp only
  have hfold : (List.range' 1 (1 - 1)).foldl
      (fun x i => x.set i (x.getD i 0 ^^^ x.getD (i - 1) 0)) [2 ^ p] = [2 ^ p] := rfl
  rw [hfold]
  have ht : gray_t_loop (([2 ^ p] : List Nat).getD (1 - 1) 0) p (2 ^ (p - 1)) 0 = 0 := by
    have hg : (([2 ^ p] : List Nat)).getD (1 - 1) 0 = 2 ^ p := rfl
    rw [hg]
    apply gray_t_loop_high (p - 1) p _ (by omega)
    intro k _ hk2
    rw [Nat.testBit_two_pow]
    exact decide_eq_false (by omega)
  rw [ht]
  have hr1 : List.range 1 = [0] := rfl
  rw [hr1]
  simp only [List.foldl_cons, List.foldl_nil]
  rw [Nat.xor_zero]
  exact set_self [2 ^ p] 0 (by simp)

end HilbertPy

namespace HilbertPy

theorem a2t_pow_single (p : Nat) (hp : 1 ≤ p) : axes2transpose [2 ^ p] p 1 = 0 := by
  unfold axes2transpose
  rw [update_pow_single p hp]
  apply extract_eq_zero
  intro j k hk
  cases j with
  | zero =>
    show (2 ^ p).testBit k = false
    rw [Nat.testBit_two_pow]
    exact decide_eq_false (by omega)
  | succ j =>
    show ((([2 ^ p] : List Nat)).getD (j + 1) 0).testBit k = false
    rw [List.getD_cons_succ]
    cases j <;> simp

theorem inverse_undo_loop_zero (n : Nat) : ∀ fuel Q,
    inverse_undo_loop n fuel Q (List.replicate n 0) = List.replicate n 0 := by
  intro fuel
  induction fuel with
  | zero => intro Q; rfl
  | succ fuel ih =>
    intro Q
    simp only [inverse_undo_loop]
    split
    · rw [foldl_undo_zero]
      exact ih _
    · rfl

theorem foldl_setxor_zero (L : List Nat) (n : Nat) :
    L.foldl (fun y i => y.set i (y.getD i 0 ^^^ 0)) (List.replicate n 0)
      = List.replicate n 0 := by
  induction L with
  | nil => rfl
  | cons a L ih =>
    simp only [List.foldl_cons]
    rw [replicate_getD, Nat.xor_zero, replicate_set]
    exact ih

theorem update_zero_vec (p n : Nat) :
    axes2transpose_update (List.replicate n 0) p n = List.replicate n 0 := by
  rw [axes2transpose_update_eq_stages, inverse_undo_loop_zero]
  unfold gray_encode
  dsimp only
  rw [foldl_gray_zero, replicate_getD, gray_t_loop_zero]
  exact foldl_setxor_zero _ n

theorem extract_replicate_zero (p n : Nat) :
    _extract_iH_from_x (List.replicate n 0) p n = 0 := by
  apply extract_eq_zero
  intro j k _
  rw [replicate_getD, Nat.zero_testBit]

theorem a2t_zero_vec (p n : Nat) : axes2transpose (List.replicate n 0) p n = 0 := by
  unfold axes2transpose
  rw [update_zero_vec, extract_replicate_zero]

end HilbertPy

namespace HilbertPy

/-! ### Bit-arithmetic and distance helpers for the adjacency argument -/

/-- Componentwise Manhattan distance between two coordinate vectors. -/
def manhattan : List Nat → List Nat → Nat
  | a :: as, b :: bs => Nat.dist a b + manhattan as bs
  | _, _ => 0

theorem manhattan_self (x : List Nat) : manhattan x x = 0 := by
  induction x with
  | nil => rfl
  | cons a T ih =>
    show Nat.dist a a + manhattan T T = 0
    rw [Nat.dist_self, ih]

theorem manhattan_set (x : List Nat) (c w : Nat) (hc : c < x.length) :
    manhattan x (x.set c w) = Nat.dist (x.getD c 0) w := by
  induction x generalizing c with
  | nil => simp at hc
  | cons a T ih =>
    cases c with
    | zero =>
      show Nat.dist a w + manhattan T T = Nat.dist ((a :: T).getD 0 0) w
      rw [manhattan_self, List.getD_cons_zero, Nat.add_zero]
    | succ c =>
      show Nat.dist a a + manhattan T (T.set c w) = Nat.dist ((a :: T).getD (c + 1) 0) w
      rw [Nat.dist_self, List.getD_cons_succ, ih c (by simpa using hc), Nat.zero_add]

theorem and_mask_mod (v l : Nat) : v &&& (2 ^ l - 1) = v % 2 ^ l :=
  Nat.and_pow_two_sub_one_eq_mod v l

theorem mod_xor_mod (a b l : Nat) :
    (a ^^^ b) % 2 ^ l = a % 2 ^ l ^^^ b % 2 ^ l := by
  rw [← and_mask_mod, ← and_mask_mod, ← and_mask_mod, Nat.and_xor_distrib_right]

theorem mod_two_pow_zero_iff (v l : Nat) :
    v % 2 ^ l = 0 ↔ ∀ m, m < l → v.testBit m = false := by
  constructor
  · intro h m hm
    have h1 := Nat.testBit_mod_two_pow v l m
    rw [h, Nat.zero_testBit, decide_eq_true hm, Bool.true_and] at h1
    exact h1.symm
  · intro h
    apply Nat.eq_of_testBit_eq
    intro m
    rw [Nat.testBit_mod_two_pow, Nat.zero_testBit]
    by_cases hm : m < l
    · rw [h m hm, Bool.and_false]
    · simp [hm]

theorem xor_lt_high_eq (a b l : Nat) (h : a ^^^ b < 2 ^ l) :
    a / 2 ^ l = b / 2 ^ l := by
  rw [← Nat.shiftRight_eq_div_pow, ← Nat.shiftRight_eq_div_pow]
  apply Nat.eq_of_testBit_eq
  intro m
  rw [Nat.testBit_shiftRight, Nat.testBit_shiftRight]
  have hlt : a ^^^ b < 2 ^ (l + m) :=
    lt_of_lt_of_le h (Nat.pow_le_pow_right (by norm_num) (by omega))
  have hx : (a ^^^ b).testBit (l + m) = false := Nat.testBit_lt_two_pow hlt
  rw [Nat.testBit_xor] at hx
  cases ha : a.testBit (l + m) <;> cases hb : b.testBit (l + m) <;>
    simp [ha, hb] at hx ⊢

theorem dist_mod_of_xor_lt (a b l : Nat) (h : a ^^^ b < 2 ^ l) :
    Nat.dist a b = Nat.dist (a % 2 ^ l) (b % 2 ^ l) := by
  have hd := xor_lt_high_eq a b l h
  have ha := Nat.div_add_mod a (2 ^ l)
  have hb := Nat.div_add_mod b (2 ^ l)
  rw [hd] at ha
  show a - b + (b - a) = a % 2 ^ l - b % 2 ^ l + (b % 2 ^ l - a % 2 ^ l)
  generalize hM : 2 ^ l * (b / 2 ^ l) = M at ha hb
  omega

theorem testBit_eq_of_xor_lt (u w l m : Nat) (h : u ^^^ w < 2 ^ l) (hm : l ≤ m) :
    u.testBit m = w.testBit m := by
  have hlt : u ^^^ w < 2 ^ m :=
    lt_of_lt_of_le h (Nat.pow_le_pow_right (by norm_num) hm)
  have hx : (u ^^^ w).testBit m = false := Nat.testBit_lt_two_pow hlt
  rw [Nat.testBit_xor] at hx
  cases ha : u.testBit m <;> cases hb : w.testBit m <;> simp [ha, hb] at hx ⊢

theorem mask_xor_eq_sub (l : Nat) : ∀ a, a < 2 ^ l → (2 ^ l - 1) ^^^ a = 2 ^ l - 1 - a := by
  induction l with
  | zero =>
    intro a ha
    have ha0 : a = 0 := by omega
    subst ha0
    decide
  | succ l ih =>
    intro a ha
    have h2 : (2 : Nat) ^ (l + 1) = 2 * 2 ^ l := by ring
    have hpos := Nat.two_pow_pos l
    have hdm := Nat.div_add_mod ((2 ^ (l + 1) - 1) ^^^ a) 2
    rw [Nat.xor_div_two, Nat.xor_mod_two_eq] at hdm
    have hM2 : (2 ^ (l + 1) - 1) / 2 = 2 ^ l - 1 := by omega
    rw [hM2, ih (a / 2) (by omega)] at hdm
    omega

theorem xor_cancel_mid (a m b : Nat) : (a ^^^ m) ^^^ (b ^^^ m) = a ^^^ b := by
  apply Nat.eq_of_testBit_eq
  intro k
  simp [Nat.testBit_xor, Bool.xor_assoc, Bool.xor_comm, Bool.xor_left_comm,
    Bool.xor_self, Bool.xor_false, Bool.false_xor]

theorem two_pow_xor_pred (q : Nat) : 2 ^ q ^^^ (2 ^ q - 1) = 2 ^ (q + 1) - 1 := by
  apply Nat.eq_of_testBit_eq
  intro m
  rw [Nat.testBit_xor, Nat.testBit_two_pow, Nat.testBit_two_pow_sub_one,
    Nat.testBit_two_pow_sub_one]
  rcases Nat.lt_trichotomy m q with h | h | h
  · rw [decide_eq_false (by omega : ¬ q = m), decide_eq_true h,
      decide_eq_true (by omega : m < q + 1)]
    rfl
  · rw [decide_eq_true h.symm, decide_eq_false (by omega : ¬ m < q),
      decide_eq_true (by omega : m < q + 1)]
    rfl
  · rw [decide_eq_false (by omega : ¬ q = m), decide_eq_false (by omega : ¬ m < q),
      decide_eq_false (by omega : ¬ m < q + 1)]
    rfl

theorem two_pow_xor_mask (q : Nat) : 2 ^ q ^^^ (2 ^ (q + 1) - 1) = 2 ^ q - 1 := by
  apply Nat.eq_of_testBit_eq
  intro m
  rw [Nat.testBit_xor, Nat.testBit_two_pow, Nat.testBit_two_pow_sub_one,
    Nat.testBit_two_pow_sub_one]
  rcases Nat.lt_trichotomy m q with h | h | h
  · rw [decide_eq_false (by omega : ¬ q = m), decide_eq_true (by omega : m < q + 1),
      decide_eq_true h]
    rfl
  · rw [decide_eq_true h.symm, decide_eq_true (by omega : m < q + 1),
      decide_eq_false (by omega : ¬ m < q)]
    rfl
  · rw [decide_eq_false (by omega : ¬ q = m), decide_eq_false (by omega : ¬ m < q + 1),
      decide_eq_false (by omega : ¬ m < q)]
    rfl

theorem mask_xor_small (q : Nat) : (2 ^ (q + 1) - 1) ^^^ (2 ^ q - 1) = 2 ^ q := by
  apply Nat.eq_of_testBit_eq
  intro m
  rw [Nat.testBit_xor, Nat.testBit_two_pow, Nat.testBit_two_pow_sub_one,
    Nat.testBit_two_pow_sub_one]
  rcases Nat.lt_trichotomy m q with h | h | h
  · rw [decide_eq_true (by omega : m < q + 1), decide_eq_true h,
      decide_eq_false (by omega : ¬ q = m)]
    rfl
  · rw [decide_eq_true (by omega : m < q + 1), decide_eq_false (by omega : ¬ m < q),
      decide_eq_true h.symm]
    rfl
  · rw [decide_eq_false (by omega : ¬ m < q + 1), decide_eq_false (by omega : ¬ m < q),
      decide_eq_false (by omega : ¬ q = m)]
    rfl

theorem dist_one_of (a b q : Nat) (hxor : a ^^^ b = 2 ^ (q + 1) - 1)
    (ha : a % 2 ^ (q + 1) = 2 ^ q) : Nat.dist a b = 1 := by
  have hq1 := Nat.two_pow_pos q
  have hq2 := Nat.two_pow_pos (q + 1)
  have h2 : (2 : Nat) ^ (q + 1) = 2 * 2 ^ q := by ring
  have hlt : a ^^^ b < 2 ^ (q + 1) := by omega
  have hbmod : b % 2 ^ (q + 1) = 2 ^ q - 1 := by
    have hb : b = a ^^^ (2 ^ (q + 1) - 1) := by
      rw [← hxor, ← Nat.xor_assoc, Nat.xor_self, Nat.zero_xor]
    rw [hb, mod_xor_mod, ha, Nat.mod_eq_of_lt (by omega), two_pow_xor_mask]
  rw [dist_mod_of_xor_lt a b (q + 1) hlt, ha, hbmod]
  show 2 ^ q - (2 ^ q - 1) + (2 ^ q - 1 - 2 ^ q) = 1
  omega

theorem dist_transfer (l a b c d : Nat) (hab : a ^^^ b < 2 ^ l) (hcd : c ^^^ d < 2 ^ l)
    (hac : c % 2 ^ l = a % 2 ^ l) (hbd : d % 2 ^ l = b % 2 ^ l) :
    Nat.dist c d = Nat.dist a b := by
  rw [dist_mod_of_xor_lt c d l hcd, hac, hbd, ← dist_mod_of_xor_lt a b l hab]

theorem dist_xor_mask_xor (l a b : Nat) (h : a ^^^ b < 2 ^ l) :
    Nat.dist (a ^^^ (2 ^ l - 1)) (b ^^^ (2 ^ l - 1)) = Nat.dist a b := by
  have hpos := Nat.two_pow_pos l
  have hM : (2 ^ l - 1) % 2 ^ l = 2 ^ l - 1 := Nat.mod_eq_of_lt (by omega)
  have hxor : (a ^^^ (2 ^ l - 1)) ^^^ (b ^^^ (2 ^ l - 1)) = a ^^^ b :=
    xor_cancel_mid a (2 ^ l - 1) b
  have ha2 : a % 2 ^ l < 2 ^ l := Nat.mod_lt _ hpos
  have hb2 : b % 2 ^ l < 2 ^ l := Nat.mod_lt _ hpos
  rw [dist_mod_of_xor_lt _ _ l (by rw [hxor]; exact h),
    mod_xor_mod, mod_xor_mod, hM, Nat.xor_comm (a % 2 ^ l), Nat.xor_comm (b % 2 ^ l),
    mask_xor_eq_sub l _ ha2, mask_xor_eq_sub l _ hb2,
    dist_mod_of_xor_lt a b l h]
  show 2 ^ l - 1 - a % 2 ^ l - (2 ^ l - 1 - b % 2 ^ l)
      + (2 ^ l - 1 - b % 2 ^ l - (2 ^ l - 1 - a % 2 ^ l))
    = a % 2 ^ l - b % 2 ^ l + (b % 2 ^ l - a % 2 ^ l)
  omega

theorem and_two_pow_eq_zero (w l : Nat) : (w &&& 2 ^ l = 0) ↔ w.testBit l = false := by
  constructor
  · intro h
    cases hb : w.testBit l
    · rfl
    · exact absurd h (by intro hc; exact ((and_two_pow_ne w l).mpr hb) hc)
  · intro h
    by_contra hc
    have := (and_two_pow_ne w l).mp hc
    rw [h] at this
    exact Bool.false_ne_true this

theorem exchange_mod (l u v : Nat) :
    (v ^^^ ((u ^^^ v) &&& (2 ^ l - 1))) % 2 ^ l = u % 2 ^ l := by
  rw [and_mask_mod, mod_xor_mod, Nat.mod_mod_of_dvd _ dvd_rfl, mod_xor_mod,
    Nat.xor_comm (u % 2 ^ l) (v % 2 ^ l), ← Nat.xor_assoc, Nat.xor_self, Nat.zero_xor]

theorem mask_xor_shift (l u v w : Nat) (h : u ^^^ w < 2 ^ l) :
    (w ^^^ v) &&& (2 ^ l - 1) = ((u ^^^ v) &&& (2 ^ l - 1)) ^^^ (u ^^^ w) := by
  have hd : (u ^^^ w) &&& (2 ^ l - 1) = u ^^^ w := by
    rw [and_mask_mod, Nat.mod_eq_of_lt h]
  rw [← hd, ← Nat.and_xor_distrib_right]
  congr 1
  apply Nat.eq_of_testBit_eq
  intro k
  simp [Nat.testBit_xor, Bool.xor_assoc, Bool.xor_comm, Bool.xor_left_comm,
    Bool.xor_self, Bool.xor_false, Bool.false_xor]

end HilbertPy

namespace HilbertPy

/-! ### Branch forms and frame lemmas for the correction step -/

theorem undo_step_invert (Q : Nat) (x : List Nat) (i : Nat)
    (h : x.getD i 0 &&& Q ≠ 0) :
    undo_step Q x i = x.set 0 (x.getD 0 0 ^^^ (Q - 1)) := by
  unfold undo_step
  dsimp only
  rw [if_pos h]

theorem undo_step_exchange (Q : Nat) (x : List Nat) (i : Nat) (hi : i ≠ 0)
    (h : x.getD i 0 &&& Q = 0) :
    undo_step Q x i
      = (x.set 0 (x.getD 0 0 ^^^ ((x.getD 0 0 ^^^ x.getD i 0) &&& (Q - 1)))).set i
          (x.getD i 0 ^^^ ((x.getD 0 0 ^^^ x.getD i 0) &&& (Q - 1))) := by
  unfold undo_step
  dsimp only
  rw [if_neg (fun hc => hc h), getD_set, if_neg (fun hc => hi hc.1.symm)]

theorem undo_step_noop (l : Nat) (x : List Nat) (i : Nat) (h0 : 0 < x.length)
    (hi : i < x.length)
    (hbit : (x.getD i 0).testBit l = false)
    (hmods : x.getD 0 0 % 2 ^ l = x.getD i 0 % 2 ^ l) :
    undo_step (2 ^ l) x i = x := by
  have hc : x.getD i 0 &&& 2 ^ l = 0 := (and_two_pow_eq_zero _ l).mpr hbit
  have ht : (x.getD 0 0 ^^^ x.getD i 0) &&& (2 ^ l - 1) = 0 := by
    rw [and_mask_mod, mod_xor_mod, hmods, Nat.xor_self]
  by_cases hi0 : i = 0
  · subst hi0
    unfold undo_step
    dsimp only
    rw [if_neg (fun hcc => hcc hc), ht, Nat.xor_zero, set_self x 0 h0, Nat.xor_zero,
      set_self x 0 h0]
  · rw [undo_step_exchange (2 ^ l) x i hi0 hc, ht, Nat.xor_zero, Nat.xor_zero,
      set_self x 0 h0, set_self x i hi]

theorem undo_step_zero_cond (l : Nat) (x : List Nat) (h0 : 0 < x.length)
    (hbit : (x.getD 0 0).testBit l = false) :
    undo_step (2 ^ l) x 0 = x :=
  undo_step_noop l x 0 h0 h0 hbit rfl

theorem undo_step_getD_untouched (Q : Nat) (x : List Nat) (i j : Nat)
    (hj0 : j ≠ 0) (hji : j ≠ i) :
    (undo_step Q x i).getD j 0 = x.getD j 0 := by
  unfold undo_step
  dsimp only
  split
  · rw [getD_set, if_neg (fun hc => hj0 hc.1.symm)]
  · rw [getD_set, if_neg (fun hc => hji hc.1.symm), getD_set,
      if_neg (fun hc => hj0 hc.1.symm)]

theorem undo_step_set_comm (Q : Nat) (x : List Nat) (i c w : Nat)
    (hc0 : c ≠ 0) (hci : c ≠ i) :
    undo_step Q (x.set c w) i = (undo_step Q x i).set c w := by
  have hgi : (x.set c w).getD i 0 = x.getD i 0 := by
    rw [getD_set, if_neg (fun hc => hci hc.1)]
  have hg0 : (x.set c w).getD 0 0 = x.getD 0 0 := by
    rw [getD_set, if_neg (fun hc => hc0 hc.1)]
  have hgi2 : ∀ A, ((x.set c w).set 0 A).getD i 0 = (x.set 0 A).getD i 0 := by
    intro A
    by_cases hcond : 0 = i ∧ i < x.length
    · rw [getD_set, List.length_set, if_pos hcond, getD_set, if_pos hcond]
    · rw [getD_set, List.length_set, if_neg hcond, hgi, getD_set, if_neg hcond]
  unfold undo_step
  dsimp only
  rw [hgi, hg0]
  split
  · rw [List.set_comm _ _ _ hc0]
  · rw [hgi2, List.set_comm _ _ _ hc0, List.set_comm _ _ _ hci]

theorem fold_undo_set_comm (Q : Nat) (L : List Nat) (x : List Nat) (c w : Nat)
    (hc0 : c ≠ 0) (hcL : ∀ i ∈ L, c ≠ i) :
    L.foldl (fun s i => undo_step Q s i) (x.set c w)
      = (L.foldl (fun s i => undo_step Q s i) x).set c w := by
  induction L generalizing x with
  | nil => rfl
  | cons a T ih =>
    rw [List.foldl_cons, List.foldl_cons,
      undo_step_set_comm Q x a c w hc0 (hcL a (List.mem_cons_self a T)),
      ih (undo_step Q x a) (fun i hi => hcL i (List.mem_cons_of_mem a hi))]

theorem fold_undo_getD_untouched (Q : Nat) (L : List Nat) (x : List Nat) (j : Nat)
    (hj0 : j ≠ 0) (hjL : ∀ i ∈ L, j ≠ i) :
    (L.foldl (fun s i => undo_step Q s i) x).getD j 0 = x.getD j 0 := by
  induction L generalizing x with
  | nil => rfl
  | cons a T ih =>
    rw [List.foldl_cons, ih (undo_step Q x a) (fun i hi => hjL i (List.mem_cons_of_mem a hi)),
      undo_step_getD_untouched Q x a j hj0 (hjL a (List.mem_cons_self a T))]

theorem fold_undo_noop (l : Nat) (L : List Nat) (x : List Nat) (h0 : 0 < x.length)
    (hL : ∀ i ∈ L, i < x.length)
    (hbits : ∀ i ∈ L, (x.getD i 0).testBit l = false)
    (hmods : ∀ i ∈ L, x.getD 0 0 % 2 ^ l = x.getD i 0 % 2 ^ l) :
    L.foldl (fun s i => undo_step (2 ^ l) s i) x = x := by
  induction L with
  | nil => rfl
  | cons a T ih =>
    rw [List.foldl_cons, undo_step_noop l x a h0 (hL a (List.mem_cons_self a T))
      (hbits a (List.mem_cons_self a T)) (hmods a (List.mem_cons_self a T))]
    exact ih (fun i hi => hL i (List.mem_cons_of_mem a hi))
      (fun i hi => hbits i (List.mem_cons_of_mem a hi))
      (fun i hi => hmods i (List.mem_cons_of_mem a hi))

theorem desc_pass_noop (l n : Nat) (y : List Nat) (hn : 1 ≤ n) (hlen : n ≤ y.length)
    (hbits : ∀ i, i < n → (y.getD i 0).testBit l = false)
    (hzero : ∀ i, i < n → y.getD i 0 % 2 ^ l = 0) :
    desc_pass n (2 ^ l) y = y := by
  unfold desc_pass
  apply fold_undo_noop l _ y (by omega)
  · intro i hi
    rw [List.mem_reverse, List.mem_range] at hi
    omega
  · intro i hi
    rw [List.mem_reverse, List.mem_range] at hi
    exact hbits i hi
  · intro i hi
    rw [List.mem_reverse, List.mem_range] at hi
    rw [hzero 0 (by omega), hzero i hi]

theorem range'_one_concat (m : Nat) :
    List.range' 1 (m + 1) = List.range' 1 m ++ [m + 1] := by
  rw [List.range'_concat]
  congr 1
  congr 1
  omega

theorem levels_fold_noop (n m : Nat) (y : List Nat) (hn : 1 ≤ n) (hlen : y.length = n)
    (hbits : ∀ i, i < n → ∀ l, l ≤ m → (y.getD i 0).testBit l = false) :
    (List.range' 1 m).foldl (fun x l => desc_pass n (2 ^ l) x) y = y := by
  induction m with
  | zero => rfl
  | succ m ih =>
    rw [range'_one_concat, List.foldl_append,
      ih (fun i hi l hl => hbits i hi l (by omega))]
    show desc_pass n (2 ^ (m + 1)) y = y
    apply desc_pass_noop (m + 1) n y hn (by omega)
      (fun i hi => hbits i hi (m + 1) le_rfl)
      (fun i hi => (mod_two_pow_zero_iff _ _).mpr (fun k hk => hbits i hi k (by omega)))

theorem desc_pass_split (n Q j : Nat) (hj : j < n) (x : List Nat) :
    desc_pass n Q x
      = ((List.range j).reverse).foldl (fun s i => undo_step Q s i)
          (undo_step Q
            (((List.range' (j + 1) (n - 1 - j)).reverse).foldl
              (fun s i => undo_step Q s i) x) j) := by
  unfold desc_pass
  have h1 : List.range n = List.range (j + 1) ++ List.range' (j + 1) (n - 1 - j) := by
    rw [List.range_eq_range', List.range_eq_range']
    have h := List.range'_append 0 (j + 1) (n - 1 - j) 1
    simp only [Nat.zero_add, Nat.one_mul] at h
    have h2 : n - 1 - j + (j + 1) = n := by omega
    rw [h2] at h
    exact h.symm
  have h3 : (List.range (j + 1)).reverse = j :: (List.range j).reverse := by
    rw [List.range_succ, List.reverse_append, List.reverse_singleton]
    rfl
  rw [h1, List.reverse_append, List.foldl_append, h3, List.foldl_cons]

end HilbertPy

namespace HilbertPy

/-! ### The single-step locality invariant

Two states are `adjacentAt l` when they agree on every component except one,
where the two values differ by exactly 1 and agree on all bits from `l`
upward.  Every correction step at bit plane `2 ^ l` preserves this relation:
the invert branch reflects the low bits of both runs identically, and the
exchange branch transplants the differing low chunk onto another component
without changing the numerical gap. -/

def adjacentAt (l : Nat) (x y : List Nat) : Prop :=
  ∃ c w, c < x.length ∧ y = x.set c w ∧ Nat.dist (x.getD c 0) w = 1
    ∧ x.getD c 0 ^^^ w < 2 ^ l

theorem exchange_mod2 (l u v : Nat) :
    (v ^^^ ((v ^^^ u) &&& (2 ^ l - 1))) % 2 ^ l = u % 2 ^ l := by
  rw [Nat.xor_comm v u]
  exact exchange_mod l u v

theorem adjacentAt_undo_step (l : Nat) (x y : List Nat) (i : Nat)
    (hi : i < x.length) (h : adjacentAt l x y) :
    adjacentAt l (undo_step (2 ^ l) x i) (undo_step (2 ^ l) y i) := by
  obtain ⟨c, w, hc, hy, hdist, hxor⟩ := h
  subst hy
  have h0len : 0 < x.length := by omega
  have hyc : (x.set c w).getD c 0 = w := by rw [getD_set, if_pos ⟨rfl, hc⟩]
  have hlen1 : (x.set c w).length = x.length := List.length_set x c w
  have hstepl : (undo_step (2 ^ l) x i).length = x.length := undo_step_length _ _ _
  by_cases hic : i = c
  · subst hic
    have hbits : w.testBit l = (x.getD i 0).testBit l :=
      (testBit_eq_of_xor_lt _ _ _ _ hxor le_rfl).symm
    cases hb : (x.getD i 0).testBit l with
    | true =>
      have hcx : x.getD i 0 &&& 2 ^ l ≠ 0 := (and_two_pow_ne _ _).mpr hb
      have hcy : (x.set i w).getD i 0 &&& 2 ^ l ≠ 0 := by
        rw [hyc]
        exact (and_two_pow_ne _ _).mpr (by rw [hbits]; exact hb)
      rw [undo_step_invert _ _ _ hcx, undo_step_invert _ _ _ hcy]
      by_cases hc0 : i = 0
      · subst hc0
        rw [hyc, List.set_set]
        refine ⟨0, w ^^^ (2 ^ l - 1), by rw [List.length_set]; exact h0len,
          (List.set_set _ _ _ _).symm, ?_, ?_⟩
        · rw [getD_set, if_pos ⟨rfl, h0len⟩]
          exact (dist_xor_mask_xor l _ _ hxor).trans hdist
        · rw [getD_set, if_pos ⟨rfl, h0len⟩, xor_cancel_mid]
          exact hxor
      · have hy0 : (x.set i w).getD 0 0 = x.getD 0 0 := by
          rw [getD_set, if_neg (fun hcc => hc0 hcc.1)]
        rw [hy0, List.set_comm _ _ _ (fun hcc : i = 0 => hc0 hcc)]
        refine ⟨i, w, by rw [List.length_set]; exact hc, rfl, ?_, ?_⟩
        · rw [getD_set, if_neg (fun hcc => hc0 hcc.1.symm)]
          exact hdist
        · rw [getD_set, if_neg (fun hcc => hc0 hcc.1.symm)]
          exact hxor
    | false =>
      have hwbitf : w.testBit l = false := by rw [hbits]; exact hb
      by_cases hc0 : i = 0
      · subst hc0
        rw [undo_step_zero_cond l x h0len hb,
          undo_step_zero_cond l (x.set 0 w) (by rw [hlen1]; exact h0len)
            (by rw [hyc]; exact hwbitf)]
        exact ⟨0, w, hc, rfl, hdist, hxor⟩
      · -- exchange on both runs; the difference migrates to component 0
        have hcx : x.getD i 0 &&& 2 ^ l = 0 := (and_two_pow_eq_zero _ _).mpr hb
        have hcy : (x.set i w).getD i 0 &&& 2 ^ l = 0 := by
          rw [hyc]
          exact (and_two_pow_eq_zero _ _).mpr hwbitf
        have hy0 : (x.set i w).getD 0 0 = x.getD 0 0 := by
          rw [getD_set, if_neg (fun hcc => hc0 hcc.1)]
        rw [undo_step_exchange _ _ _ hc0 hcx, undo_step_exchange _ _ _ hc0 hcy,
          hy0, hyc]
        have hd2 : (x.getD i 0 ^^^ w) &&& (2 ^ l - 1) = x.getD i 0 ^^^ w := by
          rw [and_mask_mod, Nat.mod_eq_of_lt hxor]
        have ht2 : (x.getD 0 0 ^^^ w) &&& (2 ^ l - 1)
            = ((x.getD 0 0 ^^^ x.getD i 0) &&& (2 ^ l - 1)) ^^^ (x.getD i 0 ^^^ w) := by
          rw [← hd2, ← Nat.and_xor_distrib_right]
          congr 1
          apply Nat.eq_of_testBit_eq
          intro k
          simp [Nat.testBit_xor, Bool.xor_assoc, Bool.xor_comm, Bool.xor_left_comm,
            Bool.xor_self, Bool.xor_false, Bool.false_xor]
        have hw2 : w ^^^ ((x.getD 0 0 ^^^ w) &&& (2 ^ l - 1))
            = x.getD i 0 ^^^ ((x.getD 0 0 ^^^ x.getD i 0) &&& (2 ^ l - 1)) := by
          rw [ht2]
          apply Nat.eq_of_testBit_eq
          intro k
          simp [Nat.testBit_xor, Bool.xor_assoc, Bool.xor_comm, Bool.xor_left_comm,
            Bool.xor_self, Bool.xor_false, Bool.false_xor]
        have hgap : (x.getD 0 0 ^^^ ((x.getD 0 0 ^^^ x.getD i 0) &&& (2 ^ l - 1)))
            ^^^ (x.getD 0 0 ^^^ ((x.getD 0 0 ^^^ w) &&& (2 ^ l - 1)))
            = x.getD i 0 ^^^ w := by
          rw [ht2]
          apply Nat.eq_of_testBit_eq
          intro k
          simp [Nat.testBit_xor, Bool.xor_assoc, Bool.xor_comm, Bool.xor_left_comm,
            Bool.xor_self, Bool.xor_false, Bool.false_xor]
        rw [hw2, List.set_comm _ _ _ (fun hcc : i = 0 => hc0 hcc), List.set_set]
        refine ⟨0, x.getD 0 0 ^^^ ((x.getD 0 0 ^^^ w) &&& (2 ^ l - 1)),
          by rw [List.length_set, List.length_set]; exact h0len, ?_, ?_, ?_⟩
        · conv_rhs => rw [List.set_comm _ _ _ (fun hcc : i = 0 => hc0 hcc), List.set_set]
        · rw [getD_set, if_neg (fun hcc => hc0 hcc.1), getD_set, if_pos ⟨rfl, h0len⟩]
          refine Eq.trans (dist_transfer l (x.getD i 0) w _ _ hxor ?_ ?_ ?_) hdist
          · rw [hgap]
            exact hxor
          · exact exchange_mod2 l (x.getD i 0) (x.getD 0 0)
          · exact exchange_mod2 l w (x.getD 0 0)
        · rw [getD_set, if_neg (fun hcc => hc0 hcc.1), getD_set, if_pos ⟨rfl, h0len⟩,
            hgap]
          exact hxor
  · have hyi : (x.set c w).getD i 0 = x.getD i 0 := by
      rw [getD_set, if_neg (fun hcc => hic hcc.1.symm)]
    by_cases hc0 : c = 0
    · subst hc0
      cases hb : (x.getD i 0).testBit l with
      | true =>
        have hcx : x.getD i 0 &&& 2 ^ l ≠ 0 := (and_two_pow_ne _ _).mpr hb
        have hcy : (x.set 0 w).getD i 0 &&& 2 ^ l ≠ 0 := by rw [hyi]; exact hcx
        rw [undo_step_invert _ _ _ hcx, undo_step_invert _ _ _ hcy, hyc, List.set_set]
        refine ⟨0, w ^^^ (2 ^ l - 1), by rw [List.length_set]; exact h0len,
          (List.set_set _ _ _ _).symm, ?_, ?_⟩
        · rw [getD_set, if_pos ⟨rfl, h0len⟩]
          exact (dist_xor_mask_xor l _ _ hxor).trans hdist
        · rw [getD_set, if_pos ⟨rfl, h0len⟩, xor_cancel_mid]
          exact hxor
      | false =>
        -- exchange on both runs; the difference migrates from 0 to component i
        have hcx : x.getD i 0 &&& 2 ^ l = 0 := (and_two_pow_eq_zero _ _).mpr hb
        have hcy : (x.set 0 w).getD i 0 &&& 2 ^ l = 0 := by rw [hyi]; exact hcx
        rw [undo_step_exchange _ _ _ hic hcx, undo_step_exchange _ _ _ hic hcy,
          hyi, hyc, List.set_set]
        have hd2 : (x.getD 0 0 ^^^ w) &&& (2 ^ l - 1) = x.getD 0 0 ^^^ w := by
          rw [and_mask_mod, Nat.mod_eq_of_lt hxor]
        have ht2 : (w ^^^ x.getD i 0) &&& (2 ^ l - 1)
            = ((x.getD 0 0 ^^^ x.getD i 0) &&& (2 ^ l - 1)) ^^^ (x.getD 0 0 ^^^ w) := by
          rw [← hd2, ← Nat.and_xor_distrib_right]
          congr 1
          apply Nat.eq_of_testBit_eq
          intro k
          simp [Nat.testBit_xor, Bool.xor_assoc, Bool.xor_comm, Bool.xor_left_comm,
            Bool.xor_self, Bool.xor_false, Bool.false_xor]
        have hcomp0 : w ^^^ ((w ^^^ x.getD i 0) &&& (2 ^ l - 1))
            = x.getD 0 0 ^^^ ((x.getD 0 0 ^^^ x.getD i 0) &&& (2 ^ l - 1)) := by
          rw [ht2]
          apply Nat.eq_of_testBit_eq
          intro k
          simp [Nat.testBit_xor, Bool.xor_assoc, Bool.xor_comm, Bool.xor_left_comm,
            Bool.xor_self, Bool.xor_false, Bool.false_xor]
        have hgap : (x.getD i 0 ^^^ ((x.getD 0 0 ^^^ x.getD i 0) &&& (2 ^ l - 1)))
            ^^^ (x.getD i 0 ^^^ ((w ^^^ x.getD i 0) &&& (2 ^ l - 1)))
            = x.getD 0 0 ^^^ w := by
          rw [ht2]
          apply Nat.eq_of_testBit_eq
          intro k
          simp [Nat.testBit_xor, Bool.xor_assoc, Bool.xor_comm, Bool.xor_left_comm,
            Bool.xor_self, Bool.xor_false, Bool.false_xor]
        rw [hcomp0]
        refine ⟨i, x.getD i 0 ^^^ ((w ^^^ x.getD i 0) &&& (2 ^ l - 1)),
          by rw [List.length_set, List.length_set]; exact hi,
          (List.set_set _ _ _ _).symm, ?_, ?_⟩
        · rw [getD_set, if_pos ⟨rfl, by rw [List.length_set]; exact hi⟩]
          refine Eq.trans (dist_transfer l (x.getD 0 0) w _ _ hxor ?_ ?_ ?_) hdist
          · rw [hgap]
            exact hxor
          · exact exchange_mod l (x.getD 0 0) (x.getD i 0)
          · exact exchange_mod l w (x.getD i 0)
        · rw [getD_set, if_pos ⟨rfl, by rw [List.length_set]; exact hi⟩, hgap]
          exact hxor
    · have hcomm := undo_step_set_comm (2 ^ l) x i c w hc0 (fun hcc => hic hcc.symm)
      rw [hcomm]
      refine ⟨c, w, by rw [hstepl]; exact hc, rfl, ?_, ?_⟩
      · rw [undo_step_getD_untouched _ _ _ _ hc0 (fun hcc => hic hcc.symm)]
        exact hdist
      · rw [undo_step_getD_untouched _ _ _ _ hc0 (fun hcc => hic hcc.symm)]
        exact hxor

theorem adjacentAt_fold (l : Nat) (L : List Nat) (x y : List Nat)
    (hL : ∀ i ∈ L, i < x.length) (h : adjacentAt l x y) :
    adjacentAt l (L.foldl (fun s i => undo_step (2 ^ l) s i) x)
      (L.foldl (fun s i => undo_step (2 ^ l) s i) y) := by
  induction L generalizing x y with
  | nil => exact h
  | cons a T ih =>
    rw [List.foldl_cons, List.foldl_cons]
    apply ih
    · intro i hi
      rw [undo_step_length]
      exact hL i (List.mem_cons_of_mem a hi)
    · exact adjacentAt_undo_step l x y a (hL a (List.mem_cons_self a T)) h

theorem adjacentAt_mono (l k : Nat) (hlk : l ≤ k) (x y : List Nat)
    (h : adjacentAt l x y) : adjacentAt k x y := by
  obtain ⟨c, w, h1, h2, h3, h4⟩ := h
  exact ⟨c, w, h1, h2, h3,
    lt_of_lt_of_le h4 (Nat.pow_le_pow_right (by norm_num) hlk)⟩

theorem adjacentAt_desc_pass (l n : Nat) (x y : List Nat) (hn : n ≤ x.length)
    (h : adjacentAt l x y) :
    adjacentAt l (desc_pass n (2 ^ l) x) (desc_pass n (2 ^ l) y) := by
  unfold desc_pass
  apply adjacentAt_fold l _ x y _ h
  intro i hi
  rw [List.mem_reverse, List.mem_range] at hi
  omega

theorem adjacentAt_levels (n a k : Nat) (x y : List Nat)
    (hlen : n ≤ x.length) (h : adjacentAt a x y) :
    adjacentAt (a + k)
      ((List.range' a k).foldl (fun s l => desc_pass n (2 ^ l) s) x)
      ((List.range' a k).foldl (fun s l => desc_pass n (2 ^ l) s) y) := by
  induction k generalizing a x y with
  | zero => exact h
  | succ k ih =>
    rw [List.range'_succ, List.foldl_cons, List.foldl_cons]
    have h1 : adjacentAt (a + 1) (desc_pass n (2 ^ a) x) (desc_pass n (2 ^ a) y) :=
      adjacentAt_mono a (a + 1) (by omega) _ _ (adjacentAt_desc_pass a n x y hlen h)
    have h2 := ih (a + 1) _ _ (by rw [desc_pass_length]; exact hlen) h1
    have h3 : a + 1 + k = a + (k + 1) := by omega
    rw [h3] at h2
    exact h2

/-! ### The critical step

At the bit plane `2 ^ q` carrying the single-bit difference between the two
runs, the branch conditions differ for the first and only time.  Entering
this step, component 0 has all-ones low bits and the differing component has
all-zero low bits, and the two outcomes land exactly 1 apart. -/

theorem critical_step_pos (q : Nat) (x : List Nat) (j : Nat) (hj : j ≠ 0)
    (hjlen : j < x.length)
    (h0 : x.getD 0 0 % 2 ^ q = 2 ^ q - 1)
    (hjlow : x.getD j 0 % 2 ^ q = 0) :
    ∃ w, undo_step (2 ^ q) (x.set j (x.getD j 0 ^^^ 2 ^ q)) j
        = (undo_step (2 ^ q) x j).set j w
      ∧ Nat.dist ((undo_step (2 ^ q) x j).getD j 0) w = 1
      ∧ (undo_step (2 ^ q) x j).getD j 0 ^^^ w = 2 ^ (q + 1) - 1 := by
  have h0len : 0 < x.length := by omega
  have hposq := Nat.two_pow_pos q
  have hposq1 := Nat.two_pow_pos (q + 1)
  have h2q : (2 : Nat) ^ (q + 1) = 2 * 2 ^ q := by ring
  have hy_j : (x.set j (x.getD j 0 ^^^ 2 ^ q)).getD j 0 = x.getD j 0 ^^^ 2 ^ q := by
    rw [getD_set, if_pos ⟨rfl, hjlen⟩]
  have hy_0 : (x.set j (x.getD j 0 ^^^ 2 ^ q)).getD 0 0 = x.getD 0 0 := by
    rw [getD_set, if_neg (fun hc => hj hc.1)]
  have humod : x.getD 0 0 &&& (2 ^ q - 1) = 2 ^ q - 1 := by
    rw [and_mask_mod]
    exact h0
  have hvmod : x.getD j 0 &&& (2 ^ q - 1) = 0 := by
    rw [and_mask_mod]
    exact hjlow
  have hqP : 2 ^ q &&& (2 ^ q - 1) = 0 := by
    rw [and_mask_mod, Nat.mod_self]
  have hvlowbits := (mod_two_pow_zero_iff (x.getD j 0) q).mp hjlow
  cases hb : (x.getD j 0).testBit q with
  | true =>
    -- run x inverts, run x.set j (· ^^^ 2 ^ q) exchanges
    have hxif : undo_step (2 ^ q) x j = x.set 0 (x.getD 0 0 ^^^ (2 ^ q - 1)) :=
      undo_step_invert _ _ _ ((and_two_pow_ne _ _).mpr hb)
    have hbv2 : (x.getD j 0 ^^^ 2 ^ q).testBit q = false := by
      rw [Nat.testBit_xor, hb, Nat.testBit_two_pow, decide_eq_true rfl]
      rfl
    have hcond2 : (x.set j (x.getD j 0 ^^^ 2 ^ q)).getD j 0 &&& 2 ^ q = 0 := by
      rw [hy_j]
      exact (and_two_pow_eq_zero _ _).mpr hbv2
    have hyelse := undo_step_exchange (2 ^ q) (x.set j (x.getD j 0 ^^^ 2 ^ q)) j hj hcond2
    rw [hy_j, hy_0] at hyelse
    have ht2 : (x.getD 0 0 ^^^ (x.getD j 0 ^^^ 2 ^ q)) &&& (2 ^ q - 1) = 2 ^ q - 1 := by
      rw [← Nat.xor_assoc, Nat.and_xor_distrib_right, Nat.and_xor_distrib_right,
        humod, hvmod, hqP, Nat.xor_zero, Nat.xor_zero]
    rw [ht2] at hyelse
    have hvm : x.getD j 0 % 2 ^ (q + 1) = 2 ^ q := by
      apply Nat.eq_of_testBit_eq
      intro m
      rw [Nat.testBit_mod_two_pow, Nat.testBit_two_pow]
      rcases Nat.lt_trichotomy m q with hm | hm | hm
      · rw [decide_eq_true (by omega : m < q + 1), Bool.true_and, hvlowbits m hm,
          decide_eq_false (by omega : ¬ q = m)]
      · subst hm
        rw [decide_eq_true (by omega : m < m + 1), Bool.true_and, hb,
          decide_eq_true rfl]
      · rw [decide_eq_false (by omega : ¬ m < q + 1), Bool.false_and,
          decide_eq_false (by omega : ¬ q = m)]
    refine ⟨(x.getD j 0 ^^^ 2 ^ q) ^^^ (2 ^ q - 1), ?_, ?_, ?_⟩
    · rw [hyelse, hxif, List.set_comm _ _ _ (fun hcc : j = 0 => hj hcc), List.set_set]
    · rw [hxif, getD_set, if_neg (fun hcc => hj hcc.1.symm)]
      apply dist_one_of _ _ q
      · apply Nat.eq_of_testBit_eq
        intro k
        rw [← two_pow_xor_pred q]
        simp [Nat.testBit_xor, Bool.xor_assoc, Bool.xor_comm, Bool.xor_left_comm,
          Bool.xor_self, Bool.xor_false, Bool.false_xor]
      · exact hvm
    · rw [hxif, getD_set, if_neg (fun hcc => hj hcc.1.symm), ← two_pow_xor_pred q]
      apply Nat.eq_of_testBit_eq
      intro k
      simp [Nat.testBit_xor, Bool.xor_assoc, Bool.xor_comm, Bool.xor_left_comm,
        Bool.xor_self, Bool.xor_false, Bool.false_xor]
  | false =>
    -- run x exchanges, run x.set j (· ^^^ 2 ^ q) inverts
    have hcondx : x.getD j 0 &&& 2 ^ q = 0 := (and_two_pow_eq_zero _ _).mpr hb
    have hxelse := undo_step_exchange (2 ^ q) x j hj hcondx
    have ht : (x.getD 0 0 ^^^ x.getD j 0) &&& (2 ^ q - 1) = 2 ^ q - 1 := by
      rw [Nat.and_xor_distrib_right, humod, hvmod, Nat.xor_zero]
    rw [ht] at hxelse
    have hbv2 : (x.getD j 0 ^^^ 2 ^ q).testBit q = true := by
      rw [Nat.testBit_xor, hb, Nat.testBit_two_pow, decide_eq_true rfl]
      rfl
    have hcond2 : (x.set j (x.getD j 0 ^^^ 2 ^ q)).getD j 0 &&& 2 ^ q ≠ 0 := by
      rw [hy_j]
      exact (and_two_pow_ne _ _).mpr hbv2
    have hyif := undo_step_invert (2 ^ q) (x.set j (x.getD j 0 ^^^ 2 ^ q)) j hcond2
    rw [hy_0] at hyif
    have hvm : x.getD j 0 % 2 ^ (q + 1) = 0 := by
      apply (mod_two_pow_zero_iff _ _).mpr
      intro m hm
      rcases Nat.lt_trichotomy m q with hmq | hmq | hmq
      · exact hvlowbits m hmq
      · subst hmq
        exact hb
      · omega
    refine ⟨x.getD j 0 ^^^ 2 ^ q, ?_, ?_, ?_⟩
    · rw [hyif, hxelse, List.set_comm _ _ _ (fun hcc : j = 0 => hj hcc), List.set_set]
    · rw [hxelse, getD_set, if_pos ⟨rfl, by rw [List.length_set]; exact hjlen⟩]
      rw [Nat.dist_comm]
      apply dist_one_of _ _ q
      · apply Nat.eq_of_testBit_eq
        intro k
        rw [← two_pow_xor_pred q]
        simp [Nat.testBit_xor, Bool.xor_assoc, Bool.xor_comm, Bool.xor_left_comm,
          Bool.xor_self, Bool.xor_false, Bool.false_xor]
      · rw [mod_xor_mod, hvm, Nat.zero_xor, Nat.mod_eq_of_lt (by omega)]
    · rw [hxelse, getD_set, if_pos ⟨rfl, by rw [List.length_set]; exact hjlen⟩,
        ← two_pow_xor_pred q]
      apply Nat.eq_of_testBit_eq
      intro k
      simp [Nat.testBit_xor, Bool.xor_assoc, Bool.xor_comm, Bool.xor_left_comm,
        Bool.xor_self, Bool.xor_false, Bool.false_xor]

theorem critical_step_zero (q : Nat) (x : List Nat) (h0len : 0 < x.length)
    (h0 : x.getD 0 0 % 2 ^ q = 2 ^ q - 1) :
    ∃ w, undo_step (2 ^ q) (x.set 0 (x.getD 0 0 ^^^ 2 ^ q)) 0
        = (undo_step (2 ^ q) x 0).set 0 w
      ∧ Nat.dist ((undo_step (2 ^ q) x 0).getD 0 0) w = 1
      ∧ (undo_step (2 ^ q) x 0).getD 0 0 ^^^ w = 2 ^ (q + 1) - 1 := by
  have hposq := Nat.two_pow_pos q
  have hposq1 := Nat.two_pow_pos (q + 1)
  have h2q : (2 : Nat) ^ (q + 1) = 2 * 2 ^ q := by ring
  have hy_0 : (x.set 0 (x.getD 0 0 ^^^ 2 ^ q)).getD 0 0 = x.getD 0 0 ^^^ 2 ^ q := by
    rw [getD_set, if_pos ⟨rfl, h0len⟩]
  have hulow : ∀ m, m < q → (x.getD 0 0).testBit m = true := by
    intro m hm
    have h1 := Nat.testBit_mod_two_pow (x.getD 0 0) q m
    rw [h0, Nat.testBit_two_pow_sub_one, decide_eq_true hm, Bool.true_and] at h1
    exact h1.symm
  cases hb : (x.getD 0 0).testBit q with
  | true =>
    have hxif : undo_step (2 ^ q) x 0 = x.set 0 (x.getD 0 0 ^^^ (2 ^ q - 1)) :=
      undo_step_invert _ _ _ ((and_two_pow_ne _ _).mpr hb)
    have hbv2 : (x.getD 0 0 ^^^ 2 ^ q).testBit q = false := by
      rw [Nat.testBit_xor, hb, Nat.testBit_two_pow, decide_eq_true rfl]
      rfl
    have hynoop : undo_step (2 ^ q) (x.set 0 (x.getD 0 0 ^^^ 2 ^ q)) 0
        = x.set 0 (x.getD 0 0 ^^^ 2 ^ q) := by
      apply undo_step_zero_cond q _ (by rw [List.length_set]; exact h0len)
      rw [hy_0]
      exact hbv2
    have hum : x.getD 0 0 % 2 ^ (q + 1) = 2 ^ (q + 1) - 1 := by
      apply Nat.eq_of_testBit_eq
      intro m
      rw [Nat.testBit_mod_two_pow, Nat.testBit_two_pow_sub_one]
      rcases Nat.lt_trichotomy m q with hm | hm | hm
      · rw [decide_eq_true (by omega : m < q + 1), Bool.true_and, hulow m hm]
      · subst hm
        rw [decide_eq_true (by omega : m < m + 1), Bool.true_and, hb]
      · rw [decide_eq_false (by omega : ¬ m < q + 1), Bool.false_and]
    refine ⟨x.getD 0 0 ^^^ 2 ^ q, ?_, ?_, ?_⟩
    · rw [hynoop, hxif, List.set_set]
    · rw [hxif, getD_set, if_pos ⟨rfl, h0len⟩]
      apply dist_one_of _ _ q
      · apply Nat.eq_of_testBit_eq
        intro k
        rw [← two_pow_xor_pred q]
        simp [Nat.testBit_xor, Bool.xor_assoc, Bool.xor_comm, Bool.xor_left_comm,
          Bool.xor_self, Bool.xor_false, Bool.false_xor]
      · rw [mod_xor_mod, hum, Nat.mod_eq_of_lt (by omega : 2 ^ q - 1 < 2 ^ (q + 1)),
          mask_xor_small]
    · rw [hxif, getD_set, if_pos ⟨rfl, h0len⟩, ← two_pow_xor_pred q]
      apply Nat.eq_of_testBit_eq
      intro k
      simp [Nat.testBit_xor, Bool.xor_assoc, Bool.xor_comm, Bool.xor_left_comm,
        Bool.xor_self, Bool.xor_false, Bool.false_xor]
  | false =>
    have hxnoop : undo_step (2 ^ q) x 0 = x := undo_step_zero_cond q x h0len hb
    have hbv2 : (x.getD 0 0 ^^^ 2 ^ q).testBit q = true := by
      rw [Nat.testBit_xor, hb, Nat.testBit_two_pow, decide_eq_true rfl]
      rfl
    have hcond2 : (x.set 0 (x.getD 0 0 ^^^ 2 ^ q)).getD 0 0 &&& 2 ^ q ≠ 0 := by
      rw [hy_0]
      exact (and_two_pow_ne _ _).mpr hbv2
    have hyif := undo_step_invert (2 ^ q) (x.set 0 (x.getD 0 0 ^^^ 2 ^ q)) 0 hcond2
    rw [hy_0] at hyif
    have hum2 : x.getD 0 0 % 2 ^ (q + 1) = 2 ^ q - 1 := by
      apply Nat.eq_of_testBit_eq
      intro m
      rw [Nat.testBit_mod_two_pow, Nat.testBit_two_pow_sub_one]
      rcases Nat.lt_trichotomy m q with hm | hm | hm
      · rw [decide_eq_true (by omega : m < q + 1), Bool.true_and, hulow m hm,
          decide_eq_true hm]
      · subst hm
        rw [decide_eq_true (by omega : m < m + 1), Bool.true_and, hb,
          decide_eq_false (by omega : ¬ m < m)]
      · rw [decide_eq_false (by omega : ¬ m < q + 1), Bool.false_and,
          decide_eq_false (by omega : ¬ m < q)]
    refine ⟨(x.getD 0 0 ^^^ 2 ^ q) ^^^ (2 ^ q - 1), ?_, ?_, ?_⟩
    · rw [hyif, hxnoop, List.set_set]
    · rw [hxnoop, Nat.dist_comm]
      apply dist_one_of _ _ q
      · apply Nat.eq_of_testBit_eq
        intro k
        rw [← two_pow_xor_pred q]
        simp [Nat.testBit_xor, Bool.xor_assoc, Bool.xor_comm, Bool.xor_left_comm,
          Bool.xor_self, Bool.xor_false, Bool.false_xor]
      · rw [mod_xor_mod, mod_xor_mod, hum2,
          Nat.mod_eq_of_lt (by omega : 2 ^ q < 2 ^ (q + 1)),
          Nat.mod_eq_of_lt (by omega : 2 ^ q - 1 < 2 ^ (q + 1)),
          Nat.xor_comm (2 ^ q - 1) (2 ^ q), Nat.xor_cancel_right]
    · rw [hxnoop, ← two_pow_xor_pred q]
      apply Nat.eq_of_testBit_eq
      intro k
      simp [Nat.testBit_xor, Bool.xor_assoc, Bool.xor_comm, Bool.xor_left_comm,
        Bool.xor_self, Bool.xor_false, Bool.false_xor]

/-! ### Evaluating the passes before the critical step

Between two consecutive curve indices the packed Gray codes differ in a
single bit, at level `q` of component `jst`.  All interleaved bits below
that one are zero except the immediately preceding one, which is set.  The
correction passes therefore do nothing until that preceding bit is consumed
by an invert step — which happens right before the critical step and leaves
component 0 with all-ones low bits. -/

theorem precritical_high (n q jst : Nat) (y : List Nat) (hn : 1 ≤ n)
    (hlen : y.length = n) (hq : 1 ≤ q) (hjst : jst + 1 < n)
    (hbitsA : ∀ i, i < n → ∀ l, l < q → (y.getD i 0).testBit l = false)
    (hbitsQ : ∀ i, jst + 1 < i → i < n → (y.getD i 0).testBit q = false)
    (hbitB : (y.getD (jst + 1) 0).testBit q = true) :
    ((List.range' (jst + 1) (n - 1 - jst)).reverse).foldl
        (fun s i => undo_step (2 ^ q) s i)
        ((List.range' 1 (q - 1)).foldl (fun x l => desc_pass n (2 ^ l) x) y)
      = y.set 0 (y.getD 0 0 ^^^ (2 ^ q - 1)) := by
  rw [levels_fold_noop n (q - 1) y hn hlen
    (fun i hi l hl => hbitsA i hi l (by omega))]
  have hsplit : List.range' (jst + 1) (n - 1 - jst)
      = (jst + 1) :: List.range' (jst + 2) (n - 2 - jst) := by
    have h1 : n - 1 - jst = (n - 2 - jst) + 1 := by omega
    rw [h1, List.range'_succ]
  rw [hsplit, List.reverse_cons, List.foldl_append,
    fold_undo_noop q ((List.range' (jst + 2) (n - 2 - jst)).reverse) y (by omega)
      (fun i hi => by
        rw [List.mem_reverse, List.mem_range'_1] at hi
        omega)
      (fun i hi => by
        rw [List.mem_reverse, List.mem_range'_1] at hi
        exact hbitsQ i (by omega) (by omega))
      (fun i hi => by
        rw [List.mem_reverse, List.mem_range'_1] at hi
        rw [(mod_two_pow_zero_iff _ _).mpr (fun k hk => hbitsA 0 (by omega) k hk),
          (mod_two_pow_zero_iff _ _).mpr (fun k hk => hbitsA i (by omega) k hk)]),
    List.foldl_cons, List.foldl_nil]
  exact undo_step_invert _ _ _ ((and_two_pow_ne _ _).mpr hbitB)

theorem precritical_top (n q : Nat) (y : List Nat) (hn : 1 ≤ n)
    (hlen : y.length = n) (hq : 1 ≤ q)
    (hbitsA : ∀ i, i < n → ∀ l, l + 1 < q → (y.getD i 0).testBit l = false)
    (hbitsA2 : ∀ i, 1 ≤ i → i < n → (y.getD i 0).testBit (q - 1) = false)
    (hbitB : (y.getD 0 0).testBit (q - 1) = true) :
    (List.range' 1 (q - 1)).foldl (fun x l => desc_pass n (2 ^ l) x) y
      = y.set 0 (y.getD 0 0 ^^^ (2 ^ (q - 1) - 1)) := by
  by_cases hq1 : q = 1
  · subst hq1
    show y = y.set 0 (y.getD 0 0 ^^^ (2 ^ (1 - 1) - 1))
    rw [(by norm_num : (2 : Nat) ^ (1 - 1) - 1 = 0), Nat.xor_zero,
      set_self y 0 (by omega)]
  · have h2 : q - 2 + 1 = q - 1 := by omega
    have hsplit : List.range' 1 (q - 1) = List.range' 1 (q - 2) ++ [q - 1] := by
      rw [← h2, range'_one_concat, h2]
    rw [hsplit, List.foldl_append,
      levels_fold_noop n (q - 2) y hn hlen (fun i hi l hl => hbitsA i hi l (by omega)),
      List.foldl_cons, List.foldl_nil,
      desc_pass_split n (2 ^ (q - 1)) 0 (by omega) y,
      fold_undo_noop (q - 1) _ y (by omega)
        (fun i hi => by rw [List.mem_reverse, List.mem_range'_1] at hi; omega)
        (fun i hi => by
          rw [List.mem_reverse, List.mem_range'_1] at hi
          exact hbitsA2 i (by omega) (by omega))
        (fun i hi => by
          rw [List.mem_reverse, List.mem_range'_1] at hi
          rw [(mod_two_pow_zero_iff _ _).mpr (fun k hk => hbitsA 0 (by omega) k (by omega)),
            (mod_two_pow_zero_iff _ _).mpr (fun k hk => hbitsA i (by omega) k (by omega))])]
    exact undo_step_invert _ _ _ ((and_two_pow_ne _ _).mpr hbitB)

/-! ### The Gray-decode stage on a packed index -/

theorem pack_getD_testBit (d : Nat) (p n j k : Nat) (hj : j < n) :
    ((_pack_iH_into_x (d : Int) p n).getD j 0).testBit k
      = (decide (k < p) && d.testBit (k * n + (n - 1 - j))) := by
  rw [_pack_testBit _ _ _ _ _ hj, pybit_natCast]

theorem gray_decode_pack (d p n : Nat) (hn : 1 ≤ n) (hp : 1 ≤ p)
    (hd : d < 2 ^ (p * n)) :
    gray_decode n (_pack_iH_into_x (d : Int) p n)
      = _pack_iH_into_x ((d ^^^ (d >>> 1) : Nat) : Int) p n := by
  have hgbit : ∀ m, (d ^^^ (d >>> 1)).testBit m = (d.testBit m ^^ d.testBit (m + 1)) := by
    intro m
    rw [Nat.testBit_xor, Nat.testBit_shiftRight, Nat.add_comm 1 m]
  apply List.ext_getElem
  · rw [gray_decode_length, _pack_length, _pack_length]
  · intro j h1 h2
    have hj : j < n := by
      have h3 := h1
      rw [gray_decode_length, _pack_length] at h3
      exact h3
    rw [getD_eq_getElem _ _ h1, getD_eq_getElem _ _ h2,
      gray_decode_getD n _ (_pack_length _ _ _) hn j hj]
    apply Nat.eq_of_testBit_eq
    intro k
    by_cases hj0 : j = 0
    · subst hj0
      rw [if_pos rfl, Nat.testBit_xor, Nat.testBit_shiftRight,
        pack_getD_testBit d p n 0 k hn, pack_getD_testBit d p n (n - 1) (1 + k) (by omega),
        pack_getD_testBit _ p n 0 k hn, hgbit]
      have hnn : n - 1 - (n - 1) = 0 := by omega
      rw [hnn, Nat.add_zero]
      by_cases hkp : k < p
      · rw [decide_eq_true hkp, Bool.true_and, Bool.true_and]
        by_cases hk1p : 1 + k < p
        · rw [decide_eq_true hk1p, Bool.true_and]
          have hidx : (1 + k) * n = k * n + (n - 1 - 0) + 1 := by
            have hr : (1 + k) * n = n + k * n := by ring
            omega
          rw [hidx]
        · rw [decide_eq_false hk1p, Bool.false_and, Bool.xor_false]
          have hidx : k * n + (n - 1 - 0) + 1 = p * n := by
            have hp1 : p = 1 + k := by omega
            rw [hp1]
            have hr : (1 + k) * n = n + k * n := by ring
            omega
          rw [hidx, Nat.testBit_lt_two_pow hd, Bool.xor_false]
      · rw [decide_eq_false hkp, Bool.false_and, Bool.false_and, Bool.false_xor]
        have hk1p : ¬ 1 + k < p := by omega
        rw [decide_eq_false hk1p, Bool.false_and]
    · rw [if_neg hj0, Nat.testBit_xor,
        pack_getD_testBit d p n j k hj, pack_getD_testBit d p n (j - 1) k (by omega),
        pack_getD_testBit _ p n j k hj, hgbit]
      have hidx : k * n + (n - 1 - (j - 1)) = k * n + (n - 1 - j) + 1 := by omega
      rw [hidx]
      by_cases hkp : k < p
      · rw [decide_eq_true hkp, Bool.true_and, Bool.true_and, Bool.true_and]
      · rw [decide_eq_false hkp, Bool.false_and, Bool.false_and, Bool.false_and]
        rfl

/-! ### Consecutive indices: trailing ones and the Gray-code single-bit step -/

theorem exists_trailing_ones (d : Nat) : ∃ c, d % 2 ^ (c + 1) = 2 ^ c - 1 := by
  have haux : ∀ fuel e, e ≤ fuel → ∃ c, e % 2 ^ (c + 1) = 2 ^ c - 1 := by
    intro fuel
    induction fuel with
    | zero =>
      intro e he
      refine ⟨0, ?_⟩
      have he0 : e = 0 := by omega
      subst he0
      decide
    | succ fuel ih =>
      intro e he
      rcases Nat.mod_two_eq_zero_or_one e with h | h
      · refine ⟨0, ?_⟩
        have h21 : (2 : Nat) ^ (0 + 1) = 2 := by norm_num
        have h20 : (2 : Nat) ^ 0 - 1 = 0 := by norm_num
        rw [h21, h20, h]
      · obtain ⟨c, hc⟩ := ih (e / 2) (by omega)
        refine ⟨c + 1, ?_⟩
        show e % 2 ^ (c + 2) = 2 ^ (c + 1) - 1
        have hK0 := Nat.two_pow_pos c
        have hKe : (2 : Nat) ^ (c + 2) = 2 * 2 ^ (c + 1) := by ring
        have hKe2 : (2 : Nat) ^ (c + 1) = 2 * 2 ^ c := by ring
        have hdm := Nat.div_add_mod (e / 2) (2 ^ (c + 1))
        have hmul : 2 * (2 ^ (c + 1) * (e / 2 / 2 ^ (c + 1)))
            = 2 ^ (c + 2) * (e / 2 / 2 ^ (c + 1)) := by ring
        have hdeq : e = 2 ^ (c + 2) * (e / 2 / 2 ^ (c + 1)) + (2 ^ (c + 1) - 1) := by
          omega
        rw [hdeq, Nat.mul_add_mod, Nat.mod_eq_of_lt (by omega)]
  exact haux d d le_rfl

theorem succ_testBits (d c : Nat) (h : d % 2 ^ (c + 1) = 2 ^ c - 1) :
    (∀ m, m < c → d.testBit m = true) ∧ d.testBit c = false
      ∧ (∀ m, m < c → (d + 1).testBit m = false) ∧ (d + 1).testBit c = true
      ∧ ∀ m, c < m → (d + 1).testBit m = d.testBit m := by
  have hK0 := Nat.two_pow_pos c
  have hK1 := Nat.two_pow_pos (c + 1)
  have hKe : (2 : Nat) ^ (c + 1) = 2 * 2 ^ c := by ring
  have hdm := Nat.div_add_mod d (2 ^ (c + 1))
  have hmul : 2 ^ (c + 1) * (d / 2 ^ (c + 1)) = d / 2 ^ (c + 1) * 2 ^ (c + 1) :=
    Nat.mul_comm _ _
  have hd1 : d = d / 2 ^ (c + 1) * 2 ^ (c + 1) + (2 ^ c - 1) := by omega
  have hd2 : d + 1 = d / 2 ^ (c + 1) * 2 ^ (c + 1) + 2 ^ c := by omega
  have hbd : ∀ m, d.testBit m
      = if m < c + 1 then (2 ^ c - 1).testBit m
        else (d / 2 ^ (c + 1)).testBit (m - (c + 1)) := by
    intro m
    conv_lhs => rw [hd1]
    exact testBit_mul_pow_add _ _ _ _ (by omega)
  have hbd2 : ∀ m, (d + 1).testBit m
      = if m < c + 1 then (2 ^ c).testBit m
        else (d / 2 ^ (c + 1)).testBit (m - (c + 1)) := by
    intro m
    conv_lhs => rw [hd2]
    exact testBit_mul_pow_add _ _ _ _ (by omega)
  refine ⟨?_, ?_, ?_, ?_, ?_⟩
  · intro m hm
    rw [hbd m, if_pos (by omega), Nat.testBit_two_pow_sub_one, decide_eq_true hm]
  · rw [hbd c, if_pos (by omega), Nat.testBit_two_pow_sub_one,
      decide_eq_false (by omega : ¬ c < c)]
  · intro m hm
    rw [hbd2 m, if_pos (by omega), Nat.testBit_two_pow,
      decide_eq_false (by omega : ¬ c = m)]
  · rw [hbd2 c, if_pos (by omega), Nat.testBit_two_pow, decide_eq_true rfl]
  · intro m hm
    rw [hbd m, hbd2 m, if_neg (by omega : ¬ m < c + 1), if_neg (by omega : ¬ m < c + 1)]

theorem gray_succ_xor (d c : Nat) (h : d % 2 ^ (c + 1) = 2 ^ c - 1) :
    (d + 1) ^^^ ((d + 1) >>> 1) = (d ^^^ (d >>> 1)) ^^^ 2 ^ c := by
  obtain ⟨h1, h2, h3, h4, h5⟩ := succ_testBits d c h
  apply Nat.eq_of_testBit_eq
  intro m
  rw [Nat.testBit_xor, Nat.testBit_xor, Nat.testBit_xor, Nat.testBit_shiftRight,
    Nat.testBit_shiftRight, Nat.testBit_two_pow]
  rcases Nat.lt_trichotomy m c with hm | hm | hm
  · by_cases hm1 : 1 + m < c
    · rw [h3 m hm, h3 (1 + m) hm1, h1 m hm, h1 (1 + m) hm1,
        decide_eq_false (by omega : ¬ c = m)]
      rfl
    · have hc1 : 1 + m = c := by omega
      rw [hc1, h3 m hm, h4, h1 m hm, h2, decide_eq_false (by omega : ¬ c = m)]
      rfl
  · subst hm
    rw [h4, h2, h5 (1 + m) (by omega), decide_eq_true rfl]
    cases d.testBit (1 + m) <;> rfl
  · rw [h5 m hm, h5 (1 + m) (by omega), decide_eq_false (by omega : ¬ c = m)]
    cases d.testBit m <;> cases d.testBit (1 + m) <;> rfl

theorem gray_low_bits (d c : Nat) (h : d % 2 ^ (c + 1) = 2 ^ c - 1) :
    ∀ m, m + 1 < c → (d ^^^ (d >>> 1)).testBit m = false := by
  obtain ⟨h1, _, _, _, _⟩ := succ_testBits d c h
  intro m hm
  rw [Nat.testBit_xor, Nat.testBit_shiftRight, h1 m (by omega), h1 (1 + m) (by omega)]
  rfl

theorem gray_bit_pred (d c : Nat) (h : d % 2 ^ (c + 1) = 2 ^ c - 1) (hc : 1 ≤ c) :
    (d ^^^ (d >>> 1)).testBit (c - 1) = true := by
  obtain ⟨h1, h2, _, _, _⟩ := succ_testBits d c h
  have hc1 : 1 + (c - 1) = c := by omega
  rw [Nat.testBit_xor, Nat.testBit_shiftRight, h1 (c - 1) (by omega), hc1, h2]
  rfl

/-! ### Bridges to the program stages -/

theorem t2a_fold_form (iH : Int) (p n : Nat) (hp : 1 ≤ p) :
    transpose2axes iH p n
      = (List.range' 1 (p - 1)).foldl (fun x l => desc_pass n (2 ^ l) x)
          (gray_decode n (_pack_iH_into_x iH p n)) := by
  rw [transpose2axes_eq_stages, two_shl p hp]
  have h21 : (2 : Nat) ^ (1 : Nat) = 2 := by norm_num
  have h := undo_loop_eq_fold n p p 1 hp (by omega)
    (gray_decode n (_pack_iH_into_x iH p n))
  rw [h21] at h
  exact h

theorem manhattan_of_adjacentAt (k : Nat) (x y : List Nat) (h : adjacentAt k x y) :
    manhattan x y = 1 := by
  obtain ⟨c, w, hc, heq, hdist, _⟩ := h
  rw [heq, manhattan_set x c w hc, hdist]

/-- The packed Gray codes of two consecutive indices differ in the single
bit at level `c / n` of component `n - 1 - c % n`, where `c` counts the
trailing ones of the first index. -/
theorem pack_gray_toggle (p n d c : Nat) (hn : 1 ≤ n) (hp : 1 ≤ p)
    (hc : d % 2 ^ (c + 1) = 2 ^ c - 1) (hcb : c < n * p) :
    _pack_iH_into_x (((d + 1) ^^^ ((d + 1) >>> 1) : Nat) : Int) p n
      = (_pack_iH_into_x ((d ^^^ (d >>> 1) : Nat) : Int) p n).set (n - 1 - c % n)
          ((_pack_iH_into_x ((d ^^^ (d >>> 1) : Nat) : Int) p n).getD (n - 1 - c % n) 0
            ^^^ 2 ^ (c / n)) := by
  have hmodn : c % n < n := Nat.mod_lt _ (by omega)
  have hdiv := Nat.div_add_mod c n
  have hcomm : n * (c / n) = c / n * n := Nat.mul_comm _ _
  have hq_lt : c / n < p := by
    by_contra hcc
    push_neg at hcc
    have h1 : p * n ≤ c / n * n := Nat.mul_le_mul_right n hcc
    have h2 : n * p = p * n := Nat.mul_comm _ _
    omega
  have hg2 : (d + 1) ^^^ ((d + 1) >>> 1) = (d ^^^ (d >>> 1)) ^^^ 2 ^ c :=
    gray_succ_xor d c hc
  generalize hG : d ^^^ (d >>> 1) = g at hg2 ⊢
  apply List.ext_getElem
  · rw [_pack_length, List.length_set, _pack_length]
  · intro j h1 h2
    have hj : j < n := by
      have h3 := h1
      rw [_pack_length] at h3
      exact h3
    rw [getD_eq_getElem _ _ h1, getD_eq_getElem _ _ h2, getD_set]
    apply Nat.eq_of_testBit_eq
    intro k
    rw [pack_getD_testBit _ p n j k hj, hg2]
    by_cases hjj : n - 1 - c % n = j
        ∧ j < (_pack_iH_into_x ((g : Nat) : Int) p n).length
    · rw [if_pos hjj]
      obtain ⟨hjeq, _⟩ := hjj
      rw [Nat.testBit_xor, Nat.testBit_xor,
        pack_getD_testBit _ p n (n - 1 - c % n) k (by omega),
        Nat.testBit_two_pow, Nat.testBit_two_pow]
      have hidx : n - 1 - j = c % n := by omega
      have hidx2 : n - 1 - (n - 1 - c % n) = c % n := by omega
      rw [hidx, hidx2]
      by_cases hkp : k < p
      · rw [decide_eq_true hkp, Bool.true_and, Bool.true_and]
        have hdec : decide (c = k * n + c % n) = decide (c / n = k) := by
          by_cases hk : c / n = k
          · rw [decide_eq_true hk]
            apply decide_eq_true
            subst hk
            omega
          · rw [decide_eq_false hk]
            apply decide_eq_false
            intro hceq
            apply hk
            have hkn : k * n = n * k := Nat.mul_comm _ _
            have hceq2 : c = n * k + c % n := by omega
            rw [hceq2, Nat.mul_add_div (by omega), Nat.div_eq_of_lt hmodn,
              Nat.add_zero]
        rw [hdec]
      · rw [decide_eq_false hkp, Bool.false_and, Bool.false_and, Bool.false_xor,
          decide_eq_false (by omega : ¬ c / n = k)]
    · rw [if_neg hjj]
      have hjne : ¬ (n - 1 - c % n = j) := by
        intro hcc
        exact hjj ⟨hcc, by rw [_pack_length]; exact hj⟩
      rw [pack_getD_testBit _ p n j k hj, Nat.testBit_xor, Nat.testBit_two_pow]
      by_cases hkp : k < p
      · have hne : ¬ (c = k * n + (n - 1 - j)) := by
          intro hceq
          have hkn : k * n = n * k := Nat.mul_comm _ _
          have hceq2 : c = n * k + (n - 1 - j) := by omega
          have hcm : c % n = n - 1 - j := by
            rw [hceq2, Nat.mul_add_mod, Nat.mod_eq_of_lt (by omega)]
          apply hjne
          omega
        rw [decide_eq_true hkp, Bool.true_and, Bool.true_and,
          decide_eq_false hne, Bool.xor_false]
      · rw [decide_eq_false hkp, Bool.false_and, Bool.false_and]

theorem dist_xor_two_pow_zero (v : Nat) :
    Nat.dist v (v ^^^ 2 ^ 0) = 1 ∧ v ^^^ (v ^^^ 2 ^ 0) < 2 ^ 1 := by
  have hx : v ^^^ (v ^^^ 2 ^ 0) = 2 ^ 0 := by
    rw [← Nat.xor_assoc, Nat.xor_self, Nat.zero_xor]
  have h2 : (2 : Nat) ^ (0 + 1 : Nat) = 2 := by norm_num
  have h1 : (2 : Nat) ^ (0 : Nat) = 1 := by norm_num
  constructor
  · rcases Nat.mod_two_eq_zero_or_one v with h | h
    · rw [Nat.dist_comm]
      apply dist_one_of _ _ 0
      · rw [Nat.xor_comm (v ^^^ 2 ^ 0) v, hx]
        norm_num
      · rw [mod_xor_mod, h2, h1, h]
        norm_num
    · apply dist_one_of _ _ 0
      · rw [hx]
        norm_num
      · rw [h2, h1, h]
  · rw [hx]
    norm_num

theorem mid_toggle_comm (y : List Nat) (jst mask t : Nat) (hjlen : jst < y.length) :
    (y.set jst (y.getD jst 0 ^^^ t)).set 0
        ((y.set jst (y.getD jst 0 ^^^ t)).getD 0 0 ^^^ mask)
      = (y.set 0 (y.getD 0 0 ^^^ mask)).set jst
          ((y.set 0 (y.getD 0 0 ^^^ mask)).getD jst 0 ^^^ t) := by
  by_cases hj0 : jst = 0
  · subst hj0
    rw [getD_set, if_pos ⟨rfl, hjlen⟩, getD_set, if_pos ⟨rfl, hjlen⟩,
      List.set_set, List.set_set]
    congr 1
    apply Nat.eq_of_testBit_eq
    intro k
    simp [Nat.testBit_xor, Bool.xor_assoc, Bool.xor_comm, Bool.xor_left_comm,
      Bool.xor_self, Bool.xor_false, Bool.false_xor]
  · rw [getD_set, if_neg (fun hcc => hj0 hcc.1), getD_set,
      if_neg (fun hcc => hj0 hcc.1.symm)]
    exact List.set_comm _ _ _ hj0

/-- After the critical step the two runs stay adjacent through the rest of
the level-`q` pass (which never touches the differing component) and through
all higher levels. -/
theorem adjacent_after_mid (p n q jst : Nat) (S : List Nat)
    (hn : 1 ≤ n) (hqp : q < p) (hjst : jst < n)
    (hlen : S.length = n)
    (h0 : S.getD 0 0 % 2 ^ q = 2 ^ q - 1)
    (hjlow : jst ≠ 0 → S.getD jst 0 % 2 ^ q = 0) :
    adjacentAt p
      ((List.range' (q + 1) (p - q - 1)).foldl (fun s l => desc_pass n (2 ^ l) s)
        (((List.range jst).reverse).foldl (fun s i => undo_step (2 ^ q) s i)
          (undo_step (2 ^ q) S jst)))
      ((List.range' (q + 1) (p - q - 1)).foldl (fun s l => desc_pass n (2 ^ l) s)
        (((List.range jst).reverse).foldl (fun s i => undo_step (2 ^ q) s i)
          (undo_step (2 ^ q) (S.set jst (S.getD jst 0 ^^^ 2 ^ q)) jst))) := by
  have hcrit : ∃ w, undo_step (2 ^ q) (S.set jst (S.getD jst 0 ^^^ 2 ^ q)) jst
      = (undo_step (2 ^ q) S jst).set jst w
    ∧ Nat.dist ((undo_step (2 ^ q) S jst).getD jst 0) w = 1
    ∧ (undo_step (2 ^ q) S jst).getD jst 0 ^^^ w = 2 ^ (q + 1) - 1 := by
    by_cases hj0 : jst = 0
    · subst hj0
      exact critical_step_zero q S (by omega) h0
    · exact critical_step_pos q S jst hj0 (by omega) h0 (hjlow hj0)
  obtain ⟨w, hw1, hw2, hw3⟩ := hcrit
  rw [hw1]
  have hlower_comm : ((List.range jst).reverse).foldl (fun s i => undo_step (2 ^ q) s i)
      ((undo_step (2 ^ q) S jst).set jst w)
      = (((List.range jst).reverse).foldl (fun s i => undo_step (2 ^ q) s i)
          (undo_step (2 ^ q) S jst)).set jst w := by
    by_cases hj0 : jst = 0
    · subst hj0
      rfl
    · exact fold_undo_set_comm (2 ^ q) _ _ jst w hj0
        (fun i hi => by
          rw [List.mem_reverse, List.mem_range] at hi
          omega)
  have hlower_getD : (((List.range jst).reverse).foldl (fun s i => undo_step (2 ^ q) s i)
      (undo_step (2 ^ q) S jst)).getD jst 0
      = (undo_step (2 ^ q) S jst).getD jst 0 := by
    by_cases hj0 : jst = 0
    · subst hj0
      rfl
    · exact fold_undo_getD_untouched (2 ^ q) _ _ jst hj0
        (fun i hi => by
          rw [List.mem_reverse, List.mem_range] at hi
          omega)
  rw [hlower_comm]
  have hlenZ : (((List.range jst).reverse).foldl (fun s i => undo_step (2 ^ q) s i)
      (undo_step (2 ^ q) S jst)).length = n := by
    rw [foldl_undo_length, undo_step_length, hlen]
  have hadj : adjacentAt (q + 1)
      (((List.range jst).reverse).foldl (fun s i => undo_step (2 ^ q) s i)
        (undo_step (2 ^ q) S jst))
      ((((List.range jst).reverse).foldl (fun s i => undo_step (2 ^ q) s i)
        (undo_step (2 ^ q) S jst)).set jst w) := by
    refine ⟨jst, w, by rw [hlenZ]; exact hjst, rfl, ?_, ?_⟩
    · rw [hlower_getD]
      exact hw2
    · rw [hlower_getD, hw3]
      have := Nat.two_pow_pos (q + 1)
      omega
  have hmain := adjacentAt_levels n (q + 1) (p - q - 1) _ _ hlenZ.ge hadj
  have hpe : q + 1 + (p - q - 1) = p := by omega
  rw [hpe] at hmain
  exact hmain

/-- Coordinate vectors of consecutive curve indices are adjacent: they agree
on every component except one, which changes by exactly 1. -/
theorem t2a_adjacent (p n d : Nat) (hp : 1 ≤ p) (hn : 1 ≤ n)
    (hd : d + 1 < 2 ^ (n * p)) :
    adjacentAt p (transpose2axes (d : Int) p n)
      (transpose2axes ((d + 1 : Nat) : Int) p n) := by
  have hcomm_np : n * p = p * n := Nat.mul_comm _ _
  have hpow : (2 : Nat) ^ (n * p) = 2 ^ (p * n) := by rw [hcomm_np]
  have hdp : d < 2 ^ (p * n) := by omega
  have hdp1 : d + 1 < 2 ^ (p * n) := by omega
  obtain ⟨c, hc⟩ := exists_trailing_ones d
  have hcb : c < n * p := by
    by_contra hcc
    push_neg at hcc
    have h4 := (succ_testBits d c hc).2.2.2.1
    have h5 := Nat.testBit_implies_ge h4
    have h6 : (2 : Nat) ^ (n * p) ≤ 2 ^ c := Nat.pow_le_pow_right (by norm_num) hcc
    omega
  have hmodn : c % n < n := Nat.mod_lt _ (by omega)
  have hdiv := Nat.div_add_mod c n
  have hcomm2 : n * (c / n) = c / n * n := Nat.mul_comm _ _
  have hq_lt : c / n < p := by
    by_contra hcc
    push_neg at hcc
    have h1 : p * n ≤ c / n * n := Nat.mul_le_mul_right n hcc
    omega
  have hjst_lt : n - 1 - c % n < n := by omega
  have hrun1 : transpose2axes (d : Int) p n
      = (List.range' 1 (p - 1)).foldl (fun x l => desc_pass n (2 ^ l) x)
          (_pack_iH_into_x ((d ^^^ (d >>> 1) : Nat) : Int) p n) := by
    rw [t2a_fold_form _ p n hp, gray_decode_pack d p n hn hp hdp]
  have hrun2 : transpose2axes ((d + 1 : Nat) : Int) p n
      = (List.range' 1 (p - 1)).foldl (fun x l => desc_pass n (2 ^ l) x)
          ((_pack_iH_into_x ((d ^^^ (d >>> 1) : Nat) : Int) p n).set (n - 1 - c % n)
            ((_pack_iH_into_x ((d ^^^ (d >>> 1) : Nat) : Int) p n).getD (n - 1 - c % n) 0
              ^^^ 2 ^ (c / n))) := by
    rw [t2a_fold_form _ p n hp, gray_decode_pack (d + 1) p n hn hp hdp1,
      pack_gray_toggle p n d c hn hp hc hcb]
  rw [hrun1, hrun2]
  set y := _pack_iH_into_x ((d ^^^ (d >>> 1) : Nat) : Int) p n with hy
  have hylen : y.length = n := by rw [hy]; exact _pack_length _ _ _
  have hybit : ∀ j k, j < n → ((y.getD j 0).testBit k
      = (decide (k < p) && (d ^^^ (d >>> 1)).testBit (k * n + (n - 1 - j)))) := by
    intro j k hj
    rw [hy]
    exact pack_getD_testBit _ p n j k hj
  by_cases hq0 : c / n = 0
  · -- the differing bit is at level 0: the invariant holds from the start
    have hadj : adjacentAt 1 y
        (y.set (n - 1 - c % n) (y.getD (n - 1 - c % n) 0 ^^^ 2 ^ (c / n))) := by
      obtain ⟨hd1, hd2⟩ := dist_xor_two_pow_zero (y.getD (n - 1 - c % n) 0)
      rw [hq0]
      exact ⟨n - 1 - c % n, y.getD (n - 1 - c % n) 0 ^^^ 2 ^ 0,
        by rw [hylen]; exact hjst_lt, rfl, hd1, hd2⟩
    have hmain := adjacentAt_levels n 1 (p - 1) _ _ hylen.ge hadj
    have hpe : 1 + (p - 1) = p := by omega
    rw [hpe] at hmain
    exact hmain
  · have hq1 : 1 ≤ c / n := Nat.one_le_iff_ne_zero.mpr hq0
    have hcn : n ≤ c := by
      by_contra hcc
      push_neg at hcc
      rw [Nat.div_eq_of_lt hcc] at hq1
      omega
    -- split the level fold at level q = c / n
    have hsplit1 : List.range' 1 (p - 1)
        = List.range' 1 (c / n - 1) ++ List.range' (c / n) (p - c / n) := by
      have h := List.range'_append 1 (c / n - 1) (p - c / n) 1
      simp only [Nat.one_mul] at h
      have e1 : 1 + (c / n - 1) = c / n := by omega
      have e2 : p - c / n + (c / n - 1) = p - 1 := by omega
      rw [e1, e2] at h
      exact h.symm
    have hsplit2 : List.range' (c / n) (p - c / n)
        = c / n :: List.range' (c / n + 1) (p - c / n - 1) := by
      have h := List.range'_succ (c / n) (p - c / n - 1) 1
      rw [show p - c / n - 1 + 1 = p - c / n from by omega] at h
      exact h
    rw [hsplit1, hsplit2]
    simp only [List.foldl_append, List.foldl_cons]
    rw [desc_pass_split n (2 ^ (c / n)) (n - 1 - c % n) hjst_lt,
      desc_pass_split n (2 ^ (c / n)) (n - 1 - c % n) hjst_lt]
    -- properties of the toggled vector
    have hy'getD : ∀ i, ¬ (n - 1 - c % n = i) →
        ((y.set (n - 1 - c % n) (y.getD (n - 1 - c % n) 0 ^^^ 2 ^ (c / n))).getD i 0
          = y.getD i 0) := by
      intro i hij
      rw [getD_set, if_neg (fun hcc => hij hcc.1)]
    have hy'jst : (y.set (n - 1 - c % n)
          (y.getD (n - 1 - c % n) 0 ^^^ 2 ^ (c / n))).getD (n - 1 - c % n) 0
        = y.getD (n - 1 - c % n) 0 ^^^ 2 ^ (c / n) := by
      rw [getD_set, if_pos ⟨rfl, by rw [hylen]; exact hjst_lt⟩]
    have hy'len : (y.set (n - 1 - c % n)
        (y.getD (n - 1 - c % n) 0 ^^^ 2 ^ (c / n))).length = n := by
      rw [List.length_set, hylen]
    have hy'bitne : ∀ i l, i < n → ¬ (c / n = l) →
        (((y.set (n - 1 - c % n) (y.getD (n - 1 - c % n) 0 ^^^ 2 ^ (c / n))).getD i 0).testBit l
          = (y.getD i 0).testBit l) := by
      intro i l hi hlq
      by_cases hij : n - 1 - c % n = i
      · rw [← hij, hy'jst, Nat.testBit_xor, Nat.testBit_two_pow,
          decide_eq_false hlq, Bool.xor_false]
      · rw [hy'getD i hij]
    by_cases hcm : 1 ≤ c % n
    · -- the consumed bit sits at level q of component jst + 1
      have hjn : (n - 1 - c % n) + 1 < n := by omega
      have hbitsA : ∀ i, i < n → ∀ l, l < c / n → (y.getD i 0).testBit l = false := by
        intro i hi l hl
        have h1 : (l + 1) * n ≤ c / n * n := Nat.mul_le_mul_right n (by omega)
        have h2 : (l + 1) * n = l * n + n := by ring
        rw [hybit i l hi, decide_eq_true (by omega : l < p), Bool.true_and]
        exact gray_low_bits d c hc _ (by omega)
      have hbitsQ : ∀ i, (n - 1 - c % n) + 1 < i → i < n →
          (y.getD i 0).testBit (c / n) = false := by
        intro i hi1 hi2
        rw [hybit i (c / n) hi2, decide_eq_true hq_lt, Bool.true_and]
        exact gray_low_bits d c hc _ (by omega)
      have hbitB : (y.getD ((n - 1 - c % n) + 1) 0).testBit (c / n) = true := by
        rw [hybit _ (c / n) (by omega), decide_eq_true hq_lt, Bool.true_and]
        have harith : c / n * n + (n - 1 - ((n - 1 - c % n) + 1)) = c - 1 := by omega
        rw [harith]
        exact gray_bit_pred d c hc (by omega)
      have hS1 := precritical_high n (c / n) (n - 1 - c % n) y hn hylen hq1 hjn
        hbitsA hbitsQ hbitB
      have hbitsA2 : ∀ i, i < n → ∀ l, l < c / n →
          (((y.set (n - 1 - c % n) (y.getD (n - 1 - c % n) 0 ^^^ 2 ^ (c / n))).getD i 0).testBit l
            = false) := by
        intro i hi l hl
        rw [hy'bitne i l hi (by omega)]
        exact hbitsA i hi l hl
      have hbitsQ2 : ∀ i, (n - 1 - c % n) + 1 < i → i < n →
          (((y.set (n - 1 - c % n) (y.getD (n - 1 - c % n) 0 ^^^ 2 ^ (c / n))).getD i 0).testBit (c / n)
            = false) := by
        intro i hi1 hi2
        rw [hy'getD i (by omega)]
        exact hbitsQ i hi1 hi2
      have hbitB2 : (((y.set (n - 1 - c % n)
            (y.getD (n - 1 - c % n) 0 ^^^ 2 ^ (c / n))).getD ((n - 1 - c % n) + 1) 0).testBit (c / n)
          = true) := by
        rw [hy'getD _ (by omega)]
        exact hbitB
      have hS2 := precritical_high n (c / n) (n - 1 - c % n) _ hn hy'len hq1 hjn
        hbitsA2 hbitsQ2 hbitB2
      rw [hS1, hS2,
        mid_toggle_comm y (n - 1 - c % n) (2 ^ (c / n) - 1) (2 ^ (c / n))
          (by rw [hylen]; exact hjst_lt)]
      apply adjacent_after_mid p n (c / n) (n - 1 - c % n) _ hn hq_lt hjst_lt
      · rw [List.length_set, hylen]
      · rw [getD_set, if_pos ⟨rfl, by rw [hylen]; omega⟩, mod_xor_mod,
          (mod_two_pow_zero_iff _ _).mpr (fun m hm => hbitsA 0 (by omega) m hm),
          Nat.zero_xor,
          Nat.mod_eq_of_lt (by have := Nat.two_pow_pos (c / n); omega)]
      · intro hj0
        rw [getD_set, if_neg (fun hcc => hj0 hcc.1.symm)]
        exact (mod_two_pow_zero_iff _ _).mpr
          (fun m hm => hbitsA (n - 1 - c % n) (by omega) m hm)
    · -- c % n = 0: the consumed bit sits at level q - 1 of component 0
      have hcm0 : c % n = 0 := by omega
      have hceq : c / n * n = c := by omega
      have h3 : (c / n - 1) * n + n = c / n * n := by
        have h4 : (c / n - 1 + 1) * n = (c / n - 1) * n + n := by ring
        rw [← h4, show c / n - 1 + 1 = c / n from by omega]
      have hbA : ∀ i, i < n → ∀ l, l + 1 < c / n → (y.getD i 0).testBit l = false := by
        intro i hi l hl
        have h1 : (l + 1) * n ≤ (c / n - 1) * n := Nat.mul_le_mul_right n (by omega)
        have h2 : (l + 1) * n = l * n + n := by ring
        rw [hybit i l hi, decide_eq_true (by omega : l < p), Bool.true_and]
        exact gray_low_bits d c hc _ (by omega)
      have hbA2 : ∀ i, 1 ≤ i → i < n →
          (y.getD i 0).testBit (c / n - 1) = false := by
        intro i hi1 hi2
        rw [hybit i (c / n - 1) hi2, decide_eq_true (by omega : c / n - 1 < p),
          Bool.true_and]
        exact gray_low_bits d c hc _ (by omega)
      have hbB : (y.getD 0 0).testBit (c / n - 1) = true := by
        rw [hybit 0 (c / n - 1) (by omega), decide_eq_true (by omega : c / n - 1 < p),
          Bool.true_and]
        have harith : (c / n - 1) * n + (n - 1 - 0) = c - 1 := by omega
        rw [harith]
        exact gray_bit_pred d c hc (by omega)
      have hcount : n - 1 - (n - 1 - c % n) = 0 := by omega
      have hS1 : ((List.range' ((n - 1 - c % n) + 1) (n - 1 - (n - 1 - c % n))).reverse).foldl
          (fun s i => undo_step (2 ^ (c / n)) s i)
          ((List.range' 1 (c / n - 1)).foldl (fun x l => desc_pass n (2 ^ l) x) y)
          = y.set 0 (y.getD 0 0 ^^^ (2 ^ (c / n - 1) - 1)) := by
        rw [hcount]
        show (List.range' 1 (c / n - 1)).foldl (fun x l => desc_pass n (2 ^ l) x) y = _
        exact precritical_top n (c / n) y hn hylen hq1 hbA hbA2 hbB
      have hbA' : ∀ i, i < n → ∀ l, l + 1 < c / n →
          (((y.set (n - 1 - c % n) (y.getD (n - 1 - c % n) 0 ^^^ 2 ^ (c / n))).getD i 0).testBit l
            = false) := by
        intro i hi l hl
        rw [hy'bitne i l hi (by omega)]
        exact hbA i hi l hl
      have hbA2' : ∀ i, 1 ≤ i → i < n →
          (((y.set (n - 1 - c % n) (y.getD (n - 1 - c % n) 0 ^^^ 2 ^ (c / n))).getD i 0).testBit (c / n - 1)
            = false) := by
        intro i hi1 hi2
        rw [hy'bitne i (c / n - 1) hi2 (by omega)]
        exact hbA2 i hi1 hi2
      have hbB' : (((y.set (n - 1 - c % n)
            (y.getD (n - 1 - c % n) 0 ^^^ 2 ^ (c / n))).getD 0 0).testBit (c / n - 1)
          = true) := by
        rw [hy'bitne 0 (c / n - 1) (by omega) (by omega)]
        exact hbB
      have hS2 : ((List.range' ((n - 1 - c % n) + 1) (n - 1 - (n - 1 - c % n))).reverse).foldl
          (fun s i => undo_step (2 ^ (c / n)) s i)
          ((List.range' 1 (c / n - 1)).foldl (fun x l => desc_pass n (2 ^ l) x)
            (y.set (n - 1 - c % n) (y.getD (n - 1 - c % n) 0 ^^^ 2 ^ (c / n))))
          = (y.set (n - 1 - c % n) (y.getD (n - 1 - c % n) 0 ^^^ 2 ^ (c / n))).set 0
              ((y.set (n - 1 - c % n)
                (y.getD (n - 1 - c % n) 0 ^^^ 2 ^ (c / n))).getD 0 0
                ^^^ (2 ^ (c / n - 1) - 1)) := by
        rw [hcount]
        show (List.range' 1 (c / n - 1)).foldl (fun x l => desc_pass n (2 ^ l) x) _ = _
        exact precritical_top n (c / n) _ hn hy'len hq1 hbA' hbA2' hbB'
      rw [hS1, hS2,
        mid_toggle_comm y (n - 1 - c % n) (2 ^ (c / n - 1) - 1) (2 ^ (c / n))
          (by rw [hylen]; exact hjst_lt)]
      have hy0m : y.getD 0 0 % 2 ^ (c / n) = 2 ^ (c / n - 1) := by
        apply Nat.eq_of_testBit_eq
        intro m
        rw [Nat.testBit_mod_two_pow, Nat.testBit_two_pow]
        rcases Nat.lt_trichotomy m (c / n - 1) with hm | hm | hm
        · rw [decide_eq_true (by omega : m < c / n), Bool.true_and,
            hbA 0 (by omega) m (by omega), decide_eq_false (by omega : ¬ c / n - 1 = m)]
        · rw [hm, decide_eq_true (by omega : c / n - 1 < c / n), Bool.true_and, hbB,
            decide_eq_true rfl]
        · rw [decide_eq_false (by omega : ¬ m < c / n), Bool.false_and,
            decide_eq_false (by omega : ¬ c / n - 1 = m)]
      have hs2q : (2 : Nat) ^ (c / n) = 2 ^ (c / n - 1) * 2 := by
        have hs := pow_succ 2 (c / n - 1)
        rw [show c / n - 1 + 1 = c / n from by omega] at hs
        exact hs
      have hpred := two_pow_xor_pred (c / n - 1)
      rw [show c / n - 1 + 1 = c / n from by omega] at hpred
      apply adjacent_after_mid p n (c / n) (n - 1 - c % n) _ hn hq_lt hjst_lt
      · rw [List.length_set, hylen]
      · rw [getD_set, if_pos ⟨rfl, by rw [hylen]; omega⟩, mod_xor_mod, hy0m,
          Nat.mod_eq_of_lt (by have := Nat.two_pow_pos (c / n - 1); omega), hpred]
      · intro hj0
        rw [getD_set, if_neg (fun hcc => hj0 hcc.1.symm)]
        apply (mod_two_pow_zero_iff _ _).mpr
        intro m hm
        rw [hybit (n - 1 - c % n) m (by omega),
          decide_eq_true (by omega : m < p), Bool.true_and]
        have h1 : (m + 1) * n ≤ c / n * n := Nat.mul_le_mul_right n (by omega)
        have h2 : (m + 1) * n = m * n + n := by ring
        exact gray_low_bits d c hc _ (by omega)

end HilbertPy

namespace HilbertPy

/-! ## The claims -/

/-- C1: for every positive dims `N` and positive depth `p` and every curve
index `d` in `[0, 2 ^ (N * p))`, converting the index to coordinates and back
returns the original index:
`axes2transpose(transpose2axes(d, p, N), p, N) == d`. -/
theorem C1_round_trip (dims depth d : Nat) (hdims : 1 ≤ dims) (hdepth : 1 ≤ depth)
    (hd : d < 2 ^ (dims * depth)) :
    axes2transpose (transpose2axes (d : Int) depth dims) depth dims = d :=
  roundtrip d depth dims hdepth hdims hd

/-- Witness for C1 at `dims = 2`, `depth = 3`, `d = 36`. -/
theorem C1_round_trip_witness :
    axes2transpose (transpose2axes ((36 : Nat) : Int) 3 2) 3 2 = 36 :=
  C1_round_trip 2 3 36 (by norm_num) (by norm_num) (by norm_num)

/-- C2: for fixed positive dims and depth, `transpose2axes` restricted to
`[0, 2 ^ (dims * depth))` is injective, its outputs are vectors of `dims`
components each in `[0, 2 ^ depth)`, and every lattice point of
`[0, 2 ^ depth) ^ dims` is hit by some index: the map is a bijection onto the
full lattice. -/
theorem C2_bijection (dims depth : Nat) (hdims : 1 ≤ dims) (hdepth : 1 ≤ depth) :
    (∀ d1 d2 : Nat, d1 < 2 ^ (dims * depth) → d2 < 2 ^ (dims * depth) →
      transpose2axes (d1 : Int) depth dims = transpose2axes (d2 : Int) depth dims →
      d1 = d2)
    ∧ (∀ d : Nat, d < 2 ^ (dims * depth) →
        (transpose2axes (d : Int) depth dims).length = dims
        ∧ ∀ j, j < dims → (transpose2axes (d : Int) depth dims).getD j 0 < 2 ^ depth)
    ∧ (∀ x : List Nat, x.length = dims → (∀ c ∈ x, c < 2 ^ depth) →
        ∃ d : Nat, d < 2 ^ (dims * depth) ∧ transpose2axes (d : Int) depth dims = x) := by
  refine ⟨fun d1 d2 h1 h2 he => t2a_inj depth dims d1 d2 hdepth hdims h1 h2 he, ?_, ?_⟩
  · intro d _
    exact ⟨transpose2axes_length _ _ _,
      fun j _ => transpose2axes_bound _ depth dims hdepth hdims j⟩
  · intro x hlen hb
    exact t2a_surj depth dims hdepth hdims x hlen hb

/-- Witness for C2: surjectivity at `dims = 2`, `depth = 1`, for the lattice
point `[1, 1]`. -/
theorem C2_bijection_witness :
    ∃ d : Nat, d < 2 ^ (2 * 1) ∧ transpose2axes (d : Int) 1 2 = [1, 1] :=
  (C2_bijection 2 1 (by norm_num) (by norm_num)).2.2 [1, 1] (by norm_num) (by decide)

/-- Counterexample for C3: the code raises no error on out-of-range inputs.
`transpose2axes(-1, 2, 2)` returns the same value as for index `15` (silent
two's-complement wraparound), `transpose2axes(16, 2, 2)` returns the same
value as index `0`, and `axes2transpose([4], 2, 1)` silently truncates the
out-of-range coordinate `4 = 2 ^ 2` to the same result as `[0]`. -/
theorem C3_counterexample :
    transpose2axes (-1) 2 2 = transpose2axes ((15 : Nat) : Int) 2 2
    ∧ transpose2axes ((16 : Nat) : Int) 2 2 = transpose2axes ((0 : Nat) : Int) 2 2
    ∧ axes2transpose [4] 2 1 = 0
    ∧ axes2transpose [0] 2 1 = 0 := by
  decide

/-- C3 (amended): the module performs no input validation and raises no
error.  The index-to-coordinates conversion reads only the low
`dims * depth` two's-complement bits, so `transpose2axes(-1, p, N)` equals
`transpose2axes(2 ^ (N * p) - 1, p, N)` and `transpose2axes(2 ^ (N * p), p, N)`
equals `transpose2axes(0, p, N)`; and the coordinates-to-index conversion
silently truncates the out-of-range single-component vector `[2 ^ depth]`
(dims = 1) to the same index `0` as `[0]`.  Out-of-range inputs are silently
wrapped or truncated, never rejected. -/
theorem C3_amended_silent_reduction (dims depth : Nat) (hdims : 1 ≤ dims)
    (hdepth : 1 ≤ depth) :
    transpose2axes (-1) depth dims
        = transpose2axes ((2 : Int) ^ (dims * depth) - 1) depth dims
    ∧ transpose2axes ((2 : Int) ^ (dims * depth)) depth dims
        = transpose2axes 0 depth dims
    ∧ axes2transpose [2 ^ depth] depth 1 = 0
    ∧ axes2transpose [0] depth 1 = 0 := by
  refine ⟨t2a_neg_one depth dims, t2a_overflow depth dims,
    a2t_pow_single depth hdepth, ?_⟩
  have h : ([0] : List Nat) = List.replicate 1 0 := rfl
  rw [h]
  exact a2t_zero_vec depth 1

/-- Witness for the amended C3 at `dims = 1`, `depth = 1`. -/
theorem C3_amended_witness :
    transpose2axes (-1) 1 1 = transpose2axes ((2 : Int) ^ (1 * 1) - 1) 1 1
    ∧ transpose2axes ((2 : Int) ^ (1 * 1)) 1 1 = transpose2axes 0 1 1
    ∧ axes2transpose [2 ^ 1] 1 1 = 0
    ∧ axes2transpose [0] 1 1 = 0 :=
  C3_amended_silent_reduction 1 1 (by norm_num) (by norm_num)

/-- Counterexample for C4: `axes2transpose` mutates its caller's list.  After
the call `axes2transpose([4, 6], 3, 2)`, the caller's list (modelled by
`axes2transpose_update`) no longer holds `[4, 6]`. -/
theorem C4_counterexample : axes2transpose_update [4, 6] 3 2 ≠ [4, 6] := by
  decide

/-- C4 (amended): `transpose2axes` allocates a fresh list, but
`axes2transpose` transforms the caller's coordinate list in place (as in the
original Skilling code): after the call, for every valid input vector, the
caller's list holds the transpose packing `_pack_iH_into_x` of the returned
index, not the original coordinates. -/
theorem C4_amended_in_place (x : List Nat) (depth dims : Nat) (hdepth : 1 ≤ depth)
    (hdims : 1 ≤ dims) (hlen : x.length = dims) (hb : ∀ c ∈ x, c < 2 ^ depth) :
    axes2transpose_update x depth dims
      = _pack_iH_into_x ((axes2transpose x depth dims : Nat) : Int) depth dims :=
  update_eq_pack x depth dims hdepth hdims hlen hb

/-- Witness for the amended C4 at `x = [4, 6]`, `depth = 3`, `dims = 2`. -/
theorem C4_amended_witness :
    axes2transpose_update [4, 6] 3 2
      = _pack_iH_into_x ((axes2transpose [4, 6] 3 2 : Nat) : Int) 3 2 :=
  C4_amended_in_place [4, 6] 3 2 (by norm_num) (by norm_num) (by decide) (by decide)

/-- C5: the documented worked example for `dims = 2`, `depth = 3`:
`transpose2axes(36, 3, 2) == [4, 6]` and `axes2transpose([4, 6], 3, 2) == 36`. -/
theorem C5_worked_example :
    transpose2axes ((36 : Nat) : Int) 3 2 = [4, 6]
    ∧ axes2transpose [4, 6] 3 2 = 36 := by
  decide

/-- C6: the transpose packer and extractor are exact inverses —
`_extract_iH_from_x(_pack_iH_into_x(index, p, N), p, N) == index` for every
index in `[0, 2 ^ (p * N))` — and `_pack_iH_into_x` returns `N` accumulators,
each in `[0, 2 ^ p)`. -/
theorem C6_pack_extract (depth dims index : Nat) (hdepth : 1 ≤ depth)
    (hdims : 1 ≤ dims) (hidx : index < 2 ^ (depth * dims)) :
    _extract_iH_from_x (_pack_iH_into_x (index : Int) depth dims) depth dims = index
    ∧ (_pack_iH_into_x (index : Int) depth dims).length = dims
    ∧ ∀ j, j < dims → (_pack_iH_into_x (index : Int) depth dims).getD j 0 < 2 ^ depth :=
  ⟨extract_pack index depth dims hidx, _pack_length _ _ _,
    fun j _ => _pack_getD_lt _ _ _ j⟩

/-- Witness for C6 at `depth = 2`, `dims = 2`, `index = 9`. -/
theorem C6_pack_extract_witness :
    _extract_iH_from_x (_pack_iH_into_x ((9 : Nat) : Int) 2 2) 2 2 = 9
    ∧ (_pack_iH_into_x ((9 : Nat) : Int) 2 2).length = 2
    ∧ ∀ j, j < 2 → (_pack_iH_into_x ((9 : Nat) : Int) 2 2).getD j 0 < 2 ^ 2 :=
  C6_pack_extract 2 2 9 (by norm_num) (by norm_num) (by norm_num)

/-- C7: for every positive dims and depth and every pair of consecutive
curve indices `d` and `d + 1` with `d + 1 < 2 ^ (dims * depth)`, the
coordinate vectors `transpose2axes(d, depth, dims)` and
`transpose2axes(d + 1, depth, dims)` differ by a Manhattan distance of
exactly 1: exactly one component changes, by exactly 1. -/
theorem C7_manhattan_adjacency (dims depth d : Nat) (hdims : 1 ≤ dims)
    (hdepth : 1 ≤ depth) (hd : d + 1 < 2 ^ (dims * depth)) :
    manhattan (transpose2axes (d : Int) depth dims)
      (transpose2axes ((d + 1 : Nat) : Int) depth dims) = 1 :=
  manhattan_of_adjacentAt depth _ _ (t2a_adjacent depth dims d hdepth hdims hd)

/-- Witness for C7 at `dims = 2`, `depth = 3`, between `d = 35` and `d = 36`. -/
theorem C7_manhattan_adjacency_witness :
    manhattan (transpose2axes ((35 : Nat) : Int) 3 2)
      (transpose2axes ((35 + 1 : Nat) : Int) 3 2) = 1 :=
  C7_manhattan_adjacency 2 3 35 (by norm_num) (by norm_num) (by norm_num)

/-- C8: for every positive dims and depth, index `d = 0` maps to the all-zero
coordinate vector (`dims` zeros). -/
theorem C8_zero_to_origin (dims depth : Nat) (hdims : 1 ≤ dims) (hdepth : 1 ≤ depth) :
    transpose2axes 0 depth dims = List.replicate dims 0 :=
  transpose2axes_zero depth dims

/-- Witness for C8 at `dims = 2`, `depth = 3`. -/
theorem C8_zero_to_origin_witness :
    transpose2axes 0 3 2 = List.replicate 2 0 :=
  C8_zero_to_origin 2 3 (by norm_num) (by norm_num)

/-- C9: the bit-plane correction loops execute exactly `depth - 1` iterations:
the `while Q != N` loop of `transpose2axes` (`Q` doubling from `2` with
`N = 2 <<< (depth - 1) = 2 ^ depth`) and the `while Q > 1` loops of
`axes2transpose` (`Q` halving from `M = 1 <<< (depth - 1) = 2 ^ (depth - 1)`),
so both conversions terminate on every input. -/
theorem C9_loop_iterations (depth : Nat) (hdepth : 1 ≤ depth) :
    undo_loop_count (2 <<< (depth - 1)) depth 2 = depth - 1
    ∧ halving_count depth (1 <<< (depth - 1)) = depth - 1 := by
  constructor
  · rw [two_shl depth hdepth]
    have h := undo_loop_count_eq depth depth 1 (by omega) (by omega)
    simp only [pow_one] at h
    exact h
  · rw [one_shl]
    exact halving_count_eq (depth - 1) depth (by omega)

/-- Witness for C9 at `depth = 4`. -/
theorem C9_loop_iterations_witness :
    undo_loop_count (2 <<< (4 - 1)) 4 2 = 4 - 1
    ∧ halving_count 4 (1 <<< (4 - 1)) = 4 - 1 :=
  C9_loop_iterations 4 (by norm_num)

/-- C10: for every integer index — including negative indices and indices at
least `2 ^ (dims * depth)` — the packer reads only the low `dims * depth`
two's-complement bits, so
`transpose2axes(index, p, N) == transpose2axes(index mod 2 ^ (N * p), p, N)`:
out-of-range indices are silently reduced modulo `2 ^ (N * p)` instead of
being rejected. -/
theorem C10_low_bits_only (index : Int) (depth dims : Nat) (hdepth : 1 ≤ depth)
    (hdims : 1 ≤ dims) :
    transpose2axes index depth dims
      = transpose2axes (index % ((2 : Int) ^ (dims * depth))) depth dims :=
  (t2a_emod index depth dims).symm

/-- Witness for C10 at `index = -3`, `depth = 2`, `dims = 1`. -/
theorem C10_low_bits_only_witness :
    transpose2axes (-3) 2 1 = transpose2axes ((-3) % ((2 : Int) ^ (1 * 2))) 2 1 :=
  C10_low_bits_only (-3) 2 1 (by norm_num) (by norm_num)

end HilbertPy
